import Mathlib

/-!
# Verification of the `decay_chain` decay-chain simulator

Shallow embedding of the repository's core (`main.py`, `nuclide.py`,
`decay.py`) in Lean 4.

Modelling conventions:
* Python floats are modelled as exact rationals (`ℚ`); the float constants
  `N_A` and `LN2 = np.log(2)` are taken as the exact rational values of the
  IEEE-754 doubles the Python process computes.
* Python `dict`s are modelled as insertion-ordered association lists
  (`alFind` / `alSet` mirror `d[k]` / `d[k] = v`); Python `set`s of strings
  are modelled as insertion-ordered duplicate-free lists (`dedupAdd` mirrors
  `s.add(x)`).
* Object references are modelled as registry keys: the discovery loop stores
  every `Nuclide` in `nuclide_objs` keyed by the discovered name, and the
  `parents` / `daughters` / `Decay.parent` / `Decay.daughter` references are
  represented by those keys.  In the integrator the chain list itself is the
  registry.
* Raised exceptions (`ValueError`, `KeyError`, `IndexError`) are modelled by
  `Except String`; the unbounded `while stack:` loop of `get_nuclides` is
  modelled with explicit fuel, `none` meaning the loop is still running after
  `fuel` iterations.
-/

namespace DecayChain

/-- Avogadro constant `N_A = 6.02214076e23` from `nuclide.py`. -/
def N_A : ℚ := 602214076 * 10 ^ 15

/-- `LN2 = np.log(2)` from `nuclide.py`: the exact rational value of the
IEEE-754 double closest to `ln 2`. -/
def LN2 : ℚ := 6243314768165359 / 9007199254740992

/-! ## Association lists: the model of Python `dict` -/

/-- Python `dict` with string keys: insertion-ordered association list. -/
abbrev AList (α : Type) := List (String × α)

/-- `d.get(k)` / `d[k]` lookup: first binding of the key. -/
def alFind {α : Type} : AList α → String → Option α
  | [], _ => none
  | (k, v) :: rest, key => if k = key then some v else alFind rest key

/-- `d[k] = v`: replace the binding in place if the key is present
(position preserved, as in CPython dicts), else append it. -/
def alSet {α : Type} : AList α → String → α → AList α
  | [], key, v => [(key, v)]
  | (k, w) :: rest, key, v =>
      if k = key then (key, v) :: rest else (k, w) :: alSet rest key v

/-- `list(d.keys())` in insertion order. -/
def keysOf {α : Type} (d : AList α) : List String := d.map Prod.fst

/-- Python `set.add` on the insertion-ordered duplicate-free list model. -/
def dedupAdd (l : List String) (x : String) : List String :=
  if x ∈ l then l else l ++ [x]

/-- Building a Python `set` from a list of elements, in insertion order. -/
def dedupList (l : List String) : List String := l.foldl dedupAdd []

/-! ## Records returned by the data handler (`data_fetching.get_data`) -/

/-- One entry of the `"decays"` list of a nuclide record (the shape produced
by `data_fetching._format_decays` / `_parse_decay_data`). -/
structure DecayRec where
  decay_pct : ℚ
  d_symbol : String
  d_n : Int
  d_z : Int
deriving DecidableEq, Repr

/-- The raw `"half_life_sec"` field of a record: either an empty cell
(absent, parsed to the empty string) or a number. -/
inductive HalfLife where
  | empty : HalfLife
  | num : ℚ → HalfLife
deriving DecidableEq, Repr

/-- A nuclide record as returned by `data_handler.get_data`. -/
structure NucData where
  symbol : String
  n : Int
  z : Int
  atomic_mass : ℚ
  half_life_sec : HalfLife
  decays : List DecayRec
deriving DecidableEq, Repr

/-- The truthiness test `not halflife` of `main.py` line 82 on the raw
half-life field: the empty cell and `0` are falsy. -/
def falsyHalfLife : HalfLife → Bool
  | .empty => true
  | .num q => q == 0

/-- `main.py` lines 80-83: `halflife = nuc_data["half_life_sec"];
if not halflife: halflife = None`. -/
def normalizeHalfLife : HalfLife → Option ℚ
  | .empty => none
  | .num q => if q = 0 then none else some q

/-! ## `decay.py`: the `Decay` edge -/

/-- A `Decay` object (`decay.py`).  The `parent` / `daughter` object
references are modelled by their registry keys. -/
structure Decay where
  parent : String
  daughter : String
  lamda : ℚ
  decay_ratio : ℚ
  lamda_eff : ℚ
deriving DecidableEq, Repr

/-- `Decay.__init__` (`decay.py` lines 9-23): raises `ValueError` unless
`0 <= decay_ratio <= 1`, otherwise stores the ratio unclamped and sets
`lamda_eff = lamda * decay_ratio`. -/
def mkDecay (parent daughter : String) (lamda decay_ratio : ℚ) :
    Except String Decay :=
  if 0 ≤ decay_ratio ∧ decay_ratio ≤ 1 then
    .ok { parent := parent, daughter := daughter, lamda := lamda,
          decay_ratio := decay_ratio, lamda_eff := lamda * decay_ratio }
  else
    .error ("ValueError: decay_ratio must be between 0 and 1, now got "
            ++ toString decay_ratio ++ ".")

/-! ## `nuclide.py`: the `Nuclide` object -/

/-- A `Nuclide` object after `__init__` has run (`nuclide.py`).
`n` is the population attribute (the constructor overwrites the neutron-count
argument, see `mkNuclide`); `sources` is the private `_sources` list;
`parents` / `daughters` hold registry keys of the referenced objects. -/
structure Nuclide where
  sym : String
  z : Int
  a : String
  name : String
  atomic_mass : ℚ
  halflife : Option ℚ
  lamda : ℚ
  m0 : Option ℚ
  n : ℚ
  parents : List String
  daughters : List String
  sources : List Decay
  n_arr : List ℚ
deriving DecidableEq, Repr

instance : Inhabited Nuclide :=
  ⟨{ sym := "", z := 0, a := "", name := "", atomic_mass := 1,
     halflife := none, lamda := 0, m0 := none, n := 0,
     parents := [], daughters := [], sources := [], n_arr := [] }⟩

/-- `Nuclide.__init__` (`nuclide.py` lines 16-46), assignment by assignment:
`self.n = n` (the neutron count) is used to form `a = str(z + n)` and
`name = sym.lower() + a`, and is then overwritten by
`self.n = N_A * m0 / atomic_mass` when `m0` is given, else `self.n = 0`
(`calc_n0`, lines 39-42 and 48-53). -/
def mkNuclide (sym : String) (z n : Int) (atom_mass : ℚ)
    (halflife : Option ℚ) (m0 : Option ℚ) : Nuclide :=
  let symL := sym.toLower
  let a := toString (z + n)
  let name := symL ++ a
  let lamda : ℚ := match halflife with
    | some h => LN2 / h
    | none => 0
  let nPop : ℚ := match m0 with
    | some m => N_A * m / atom_mass
    | none => 0
  { sym := symL, z := z, a := a, name := name, atomic_mass := atom_mass,
    halflife := halflife, lamda := lamda, m0 := m0, n := nPop,
    parents := [], daughters := [], sources := [], n_arr := [] }

/-! ## Integrator (`main.py`: `_dsdt`, `_eulerfw`, `solve`)

The chain handed to the integrator is the keyed registry produced by
`get_nuclides`; `Decay.parent` references are resolved by key lookup in the
chain itself. -/

/-- Population of the nuclide a `Decay.parent` reference points to
(`dec.parent.n` in `Decay.calculate`). -/
def popOf (chain : AList Nuclide) (k : String) : ℚ :=
  ((alFind chain k).map Nuclide.n).getD 0

/-- `Nuclide.source_term` (`nuclide.py` lines 76-80):
`sum(dec.calculate() for dec in self._sources)` with
`Decay.calculate() = lamda_eff * parent.n`. -/
def source_term (chain : AList Nuclide) (nuc : Nuclide) : ℚ :=
  (nuc.sources.map (fun d => d.lamda_eff * popOf chain d.parent)).sum

/-- `Nuclide.loss_term` (`nuclide.py` lines 82-86): `lamda * n`. -/
def loss_term (nuc : Nuclide) : ℚ := nuc.lamda * nuc.n

/-- `_dsdt` (`main.py` lines 116-122): the derivative vector
`[source_term - loss_term for nuc in nuclides]`, all read from the same
pre-step state. -/
def dsdt (chain : AList Nuclide) : List ℚ :=
  chain.map (fun p => source_term chain p.2 - loss_term p.2)

/-- One iteration of the `_eulerfw` loop body (`main.py` lines 133-137):
`y_vals = dt * fun(nuclides)` is computed for the whole chain first, then
every nuclide performs `n += max(y_vals[j], -n)` and appends the new `n`
to `n_arr`. -/
def eulerStep (dt : ℚ) (chain : AList Nuclide) : AList Nuclide :=
  let yvals := (dsdt chain).map (fun y => dt * y)
  (chain.zip yvals).map (fun py =>
    let newN := py.1.2.n + max py.2 (-py.1.2.n)
    (py.1.1, { py.1.2 with n := newN, n_arr := py.1.2.n_arr ++ [newN] }))

/-- `m` sequential iterations of the `_eulerfw` loop body. -/
def stepN (dt : ℚ) : Nat → AList Nuclide → AList Nuclide
  | 0, chain => chain
  | m + 1, chain => stepN dt m (eulerStep dt chain)

/-- `_eulerfw` (`main.py` lines 125-138): `dt = tspan[1] - tspan[0]` (an
`IndexError` when the grid has fewer than 2 points), then one loop iteration
per element of `tspan[1:]`. -/
def eulerfw (chain : AList Nuclide) (tspan : List ℚ) :
    Except String (AList Nuclide) :=
  match tspan with
  | t0 :: t1 :: rest => .ok (stepN (t1 - t0) (rest.length + 1) chain)
  | _ => .error "IndexError: index 1 is out of bounds"

/-- `solve` (`main.py` lines 141-147): `_eulerfw` with `fun=_dsdt`. -/
def solve (chain : AList Nuclide) (tspan : List ℚ) :
    Except String (AList Nuclide) :=
  eulerfw chain tspan

/-- The `j`-th nuclide of a chain (list indexing; out-of-range yields the
default object, used only under `j < chain.length`). -/
def nthNuc (chain : AList Nuclide) (j : Nat) : Nuclide :=
  ((chain[j]?).map Prod.snd).getD default

/-! ## Chain builder (`main.py`: `_get_daughters`, `get_nuclides`) -/

/-- The daughter name computed by `_get_daughters` (`main.py` lines 44-59):
`sym + str(int(z) + int(n))`, the symbol taken verbatim from the record. -/
def daughterName (dec : DecayRec) : String :=
  dec.d_symbol ++ toString (dec.d_z + dec.d_n)

/-- `_get_daughters` applied to a `"decays"` list. -/
def get_daughters (decays : List DecayRec) : List String :=
  decays.map daughterName

/-- One `nuclide_dict` value: `{"parents": set(), "daughters": set(),
"decays": []}` (`main.py` line 88). -/
structure Entry where
  parents : List String
  daughters : List String
  decays : List DecayRec
deriving DecidableEq, Repr, Inhabited

/-- `src_nuclides.get(nuc, None)` (`main.py` line 85). -/
def srcGet (src : AList ℚ) (nuc : String) : Option ℚ := alFind src nuc

/-- The `Nuclide` object `get_nuclides` constructs for a discovered name
(`main.py` lines 85-87, after the half-life normalization of lines 82-83). -/
def mkNuclideFromData (ds : String → NucData) (src : AList ℚ)
    (nuc : String) : Nuclide :=
  mkNuclide (ds nuc).symbol (ds nuc).z (ds nuc).n (ds nuc).atomic_mass
    (normalizeHalfLife (ds nuc).half_life_sec) (srcGet src nuc)

/-- One iteration of the daughter loop of `get_nuclides` (`main.py` lines
89-92): add the daughter name to the popped nuclide's daughter set, store the
raw decays list, and push the daughter onto the worklist. -/
def addDaughterStep (nuc : String) (decays : List DecayRec)
    (st : AList Entry × List String) (daughter : String) :
    AList Entry × List String :=
  let e := (alFind st.1 nuc).getD default
  (alSet st.1 nuc
     { e with daughters := dedupAdd e.daughters daughter, decays := decays },
   daughter :: st.2)

/-- The body of the `while stack:` loop of `get_nuclides` (`main.py` lines
73-92) for one popped name `nuc`: query the data handler, construct the
`Nuclide` object if the name is new to `nuclide_dict`, reset the name's
`nuclide_dict` entry, then run the daughter loop. -/
def processNuc (ds : String → NucData) (src : AList ℚ) (nuc : String)
    (objs : AList Nuclide) (dict : AList Entry) (stack : List String) :
    AList Nuclide × AList Entry × List String :=
  let data := ds nuc
  let objs :=
    if (alFind dict nuc).isSome then objs
    else alSet objs nuc (mkNuclideFromData ds src nuc)
  let dict := alSet dict nuc { parents := [], daughters := [], decays := [] }
  let st := (get_daughters data.decays).foldl
      (addDaughterStep nuc data.decays) (dict, stack)
  (objs, st.1, st.2)

/-- The `while stack:` loop of `get_nuclides`, with fuel: `none` means the
loop has not finished within `fuel` iterations.  The top of the Python stack
(`stack.pop()` / `stack.append`) is the head of the list. -/
def discoverLoop (ds : String → NucData) (src : AList ℚ) :
    Nat → List String → AList Nuclide → AList Entry →
    Option (AList Nuclide × AList Entry)
  | 0, _, _, _ => none
  | _ + 1, [], objs, dict => some (objs, dict)
  | fuel + 1, nuc :: stack, objs, dict =>
      let s := processNuc ds src nuc objs dict stack
      discoverLoop ds src fuel s.2.2 s.1 s.2.1

/-- One step of the parent pass (`main.py` line 97):
`nuclide_dict[daughter]["parents"].add(parent)`, a `KeyError` when the
daughter is not a key. -/
def fillParentsStep (d : AList Entry) (parent daughter : String) :
    Except String (AList Entry) :=
  match alFind d daughter with
  | none => .error ("KeyError: " ++ daughter)
  | some e => .ok (alSet d daughter { e with parents := dedupAdd e.parents parent })

/-- The parent pass of `get_nuclides` (`main.py` lines 94-97): for every
key in insertion order, add it to each of its daughters' parent sets. -/
def fillParents (d : AList Entry) : Except String (AList Entry) :=
  d.foldlM (fun acc kv =>
    kv.2.daughters.foldlM (fun acc2 dg => fillParentsStep acc2 kv.1 dg) acc) d

/-- `nuc_obj.add_parent(nuc=nuclide_objs[parent])` (`main.py` line 105):
look the parent object up (`KeyError` when absent) and append its reference
to the current object's `parents` list. -/
def addParentK (objs : AList Nuclide) (nuc parent : String) :
    Except String (AList Nuclide) :=
  match alFind objs parent with
  | none => .error ("KeyError: " ++ parent)
  | some _ =>
      match alFind objs nuc with
      | none => .error ("KeyError: " ++ nuc)
      | some o => .ok (alSet objs nuc { o with parents := o.parents ++ [parent] })

/-- `nuclide_objs[k]`: the lookup raising `KeyError` when the key is
absent. -/
def getObj (objs : AList Nuclide) (k : String) : Except String Nuclide :=
  match alFind objs k with
  | some o => .ok o
  | none => .error ("KeyError: " ++ k)

/-- One iteration of the daughter/decay loop of the third pass (`main.py`
lines 106-110): look the daughter object up (`KeyError` when absent), append
its reference to `nuc_obj.daughters`, construct the `Decay` (which may raise
`ValueError`), and append it to the daughter object's `_sources`.  The live
reference `nuc_obj` is read from the registry at its key. -/
def addDaughterEdge (objs : AList Nuclide) (nuc : String)
    (dd : String × DecayRec) : Except String (AList Nuclide) := do
  let _dObj ← getObj objs dd.1
  let pObj ← getObj objs nuc
  let objs2 := alSet objs nuc { pObj with daughters := pObj.daughters ++ [dd.1] }
  let d ← mkDecay nuc dd.1 pObj.lamda (dd.2.decay_pct / 100)
  let dObj2 ← getObj objs2 dd.1
  .ok (alSet objs2 dd.1 { dObj2 with sources := dObj2.sources ++ [d] })

/-- The third pass of `get_nuclides` (`main.py` lines 99-111): for each
`nuclide_dict` item in insertion order, wire the parent references, then zip
the daughter *set* with the raw decays *list* and build one `Decay` edge per
zipped pair, collecting the keys in `nuclide_lst` order. -/
def thirdPass (objs : AList Nuclide) (dict : AList Entry) :
    Except String (AList Nuclide × List String) :=
  dict.foldlM (fun acc kv => do
      match alFind acc.1 kv.1 with
      | none => .error ("KeyError: " ++ kv.1)
      | some _ =>
          let o1 ← kv.2.parents.foldlM (fun o p => addParentK o kv.1 p) acc.1
          let o2 ← (kv.2.daughters.zip kv.2.decays).foldlM
              (fun o dd => addDaughterEdge o kv.1 dd) o1
          .ok (o2, acc.2 ++ [kv.1]))
    (objs, [])

/-- `get_nuclides` (`main.py` lines 62-113): discovery loop (with fuel),
parent pass, third pass; the returned chain is the keyed `nuclide_lst`.
`none` means the discovery loop had not finished within `fuel` iterations;
`some (.error e)` a raised exception. -/
def get_nuclides (ds : String → NucData) (src : AList ℚ) (fuel : Nat) :
    Option (Except String (AList Nuclide)) :=
  match discoverLoop ds src fuel (keysOf src).reverse [] [] with
  | none => none
  | some (objs, dict) =>
      some (do
        let dict2 ← fillParents dict
        let r ← thirdPass objs dict2
        .ok (r.2.map (fun k => (k, ((alFind r.1 k).getD default)))))

/-! ## Predicates used to state the claims -/

/-- Every nuclide of the chain has a non-negative population and only
non-negative recorded history values. -/
def NonnegAll (c : AList Nuclide) : Prop :=
  ∀ p ∈ c, 0 ≤ p.2.n ∧ ∀ x ∈ p.2.n_arr, 0 ≤ x

/-- `c'` is obtained from `c` by one synchronous explicit-Euler step of size
`dt`: every nuclide's update uses the derivative
`sum(lamda_eff * parent.n) - lamda * n` evaluated entirely on `c` (the
pre-step populations), clamped below by `-n`, and appends the new population
to the history. -/
def SyncStep (dt : ℚ) (c c' : AList Nuclide) : Prop :=
  c'.length = c.length ∧ ∀ j, j < c.length →
    (nthNuc c' j).n = (nthNuc c j).n +
      max (dt * (((nthNuc c j).sources.map
            (fun d => d.lamda_eff * popOf c d.parent)).sum -
          (nthNuc c j).lamda * (nthNuc c j).n))
        (-(nthNuc c j).n) ∧
    (nthNuc c' j).n_arr = (nthNuc c j).n_arr ++ [(nthNuc c' j).n]

/-- The content of claim C3 for a `k`-point uniform grid of spacing `h`:
`solve` performs exactly `k - 1` steps of size `h = grid[1] - grid[0]`, every
step is a synchronous explicit-Euler step with the per-nuclide derivative of
the model, and every history grows by exactly `k - 1` entries. -/
def C3Prop (chain : AList Nuclide) (tspan : List ℚ) (k : Nat) (h : ℚ) : Prop :=
  solve chain tspan = .ok (stepN h (k - 1) chain) ∧
  (∀ i, SyncStep h (stepN h i chain) (stepN h (i + 1) chain)) ∧
  (∀ j, j < chain.length →
    (nthNuc (stepN h (k - 1) chain) j).n_arr.length =
      (nthNuc chain j).n_arr.length + (k - 1))

/-- A nuclide constructed without a half-life always has decay constant 0. -/
def StableLamdaZero : Prop :=
  ∀ (s : String) (z nn : Int) (mass : ℚ) (m0 : Option ℚ),
    (mkNuclide s z nn mass none m0).lamda = 0

/-- The `j`-th nuclide of `out` kept its pre-run population and every one of
its recorded history values equals that population. -/
def ConstPopulation (chain out : AList Nuclide) (j : Nat) : Prop :=
  (nthNuc out j).n = (nthNuc chain j).n ∧
  ∀ x ∈ (nthNuc out j).n_arr, x = (nthNuc chain j).n

/-! ## Concrete inputs used by witnesses and counterexamples -/

/-- A single already-built nuclide with decay constant 1 and population 1
(so that `lamda * dt > 1` for the step size 2 used below). -/
def xNuc : Nuclide :=
  { sym := "x", z := 1, a := "2", name := "x2", atomic_mass := 1,
    halflife := some 1, lamda := 1, m0 := none, n := 1,
    parents := [], daughters := [], sources := [], n_arr := [] }

/-- A decay edge from `p2` to `d2` with ratio 1 and rate 1. -/
def edgePD : Decay :=
  { parent := "p2", daughter := "d2", lamda := 1, decay_ratio := 1,
    lamda_eff := 1 }

/-- Parent nuclide for the C3 witness: rate 1, population 4. -/
def pNuc : Nuclide := { xNuc with name := "p2", daughters := ["d2"], n := 4 }

/-- Daughter nuclide for the C3 witness: stable, fed by `edgePD`. -/
def dNuc : Nuclide :=
  { xNuc with
    name := "d2"
    lamda := 0
    n := 0
    parents := ["p2"]
    sources := [edgePD] }

/-- Stable, source-free nuclide with population 5 for the C8 witness. -/
def sNuc : Nuclide :=
  { xNuc with name := "s2", lamda := 0, halflife := none, n := 5 }

/-- The two-step run of `[("x2", xNuc)]` over the grid `[0, 2, 4]`. -/
def c2out : AList Nuclide :=
  [("x2", { xNuc with n := 0, n_arr := [0, 0] })]

/-- The run of the parent/daughter pair over `[0, 2, 4]`. -/
def c3out : AList Nuclide :=
  [("p2", { pNuc with n := 0, n_arr := [0, 0] }),
   ("d2", { dNuc with n := 8, n_arr := [8, 8] })]

/-- The run of the stable nuclide over `[0, 1, 2, 3]`. -/
def c8out : AList Nuclide :=
  [("s2", { sNuc with n := 5, n_arr := [5, 5, 5] })]

/-- Data source realizing the two-cycle `a2 → b2 → a2`: both nuclides decay
into the other with a 100% channel; any other name is stable. -/
def dsCycle : String → NucData := fun s =>
  if s = "a2" then
    { symbol := "a", n := 1, z := 1, atomic_mass := 1,
      half_life_sec := .num 1, decays := [⟨100, "b", 1, 1⟩] }
  else if s = "b2" then
    { symbol := "b", n := 1, z := 1, atomic_mass := 1,
      half_life_sec := .num 1, decays := [⟨100, "a", 1, 1⟩] }
  else
    { symbol := s, n := 0, z := 0, atomic_mass := 1,
      half_life_sec := .empty, decays := [] }

/-- Source mapping for the cycle input: 1 kg of `a2`. -/
def srcCycle : AList ℚ := [("a2", 1)]

/-- `nuclide_objs` after the first iteration of the cycle run. -/
def objsCycle1 : AList Nuclide :=
  [("a2", mkNuclideFromData dsCycle srcCycle "a2")]

/-- `nuclide_objs` after the second iteration of the cycle run (it never
changes again). -/
def objsCycle2 : AList Nuclide :=
  objsCycle1 ++ [("b2", mkNuclideFromData dsCycle srcCycle "b2")]

/-- The steady `nuclide_dict` entry of `a2` in the cycle run. -/
def entryA : Entry := ⟨[], ["b2"], [⟨100, "b", 1, 1⟩]⟩

/-- The steady `nuclide_dict` entry of `b2` in the cycle run. -/
def entryB : Entry := ⟨[], ["a2"], [⟨100, "a", 1, 1⟩]⟩

/-- `nuclide_dict` after the first iteration of the cycle run. -/
def dictCycle1 : AList Entry := [("a2", entryA)]

/-- `nuclide_dict` from the second iteration of the cycle run on (each later
iteration resets one entry and rebuilds it identically). -/
def dictCycle : AList Entry := [("a2", entryA), ("b2", entryB)]

/-- The steady-state `nuclide_dict` entry a terminated discovery loop holds
for a name whose record lists `decays`: empty parent set, daughter set built
by repeated `set.add` over the daughter names, and the raw decays list. -/
def finalEntry (decays : List DecayRec) : Entry :=
  { parents := [], daughters := dedupList (get_daughters decays),
    decays := decays }

/-- One `set.add` step of the daughter loop as it acts on the popped
nuclide's entry. -/
def entryStep (decays : List DecayRec) (acc : Entry) (nm : String) : Entry :=
  { parents := acc.parents, daughters := dedupAdd acc.daughters nm,
    decays := decays }

/-- The decay constant of the registry object a key refers to. -/
def lamOf (objs : AList Nuclide) (a : String) : ℚ :=
  ((alFind objs a).map Nuclide.lamda).getD 0

/-- The `Decay` value `Decay(parent=a, daughter=k, lamda=lam,
decay_ratio=dec["decay_%"] / 100)` successfully constructs. -/
def mkEdge (a k : String) (lam : ℚ) (dec : DecayRec) : Decay :=
  { parent := a, daughter := k, lamda := lam,
    decay_ratio := dec.decay_pct / 100,
    lamda_eff := lam * (dec.decay_pct / 100) }

/-- The `Decay` edges the third pass appends to `k`'s `_sources` while
processing parent `a` with discovery entry `e`: one edge per zipped
(daughter, decay) pair whose daughter is `k`. -/
def edgesFromInto (objs : AList Nuclide) (a : String) (e : Entry)
    (k : String) : List Decay :=
  (e.daughters.zip e.decays).filterMap (fun dd =>
    if dd.1 = k then some (mkEdge a k (lamOf objs a) dd.2) else none)

/-- All `Decay` edges the whole third pass appends to `k`'s `_sources`, in
pass order. -/
def passSources (objs : AList Nuclide) (items : AList Entry)
    (k : String) : List Decay :=
  (items.map (fun kv => edgesFromInto objs kv.1 kv.2 k)).flatten

/-- All decay edges the build attaches to `k`'s `_sources`, expressed purely
in terms of the data source: one edge per (daughter, decay) zip pair of each
discovered parent whose daughter name is `k`, in discovery-key order. -/
def edgesInto (ds : String → NucData) (src : AList ℚ) (keys : List String)
    (k : String) : List Decay :=
  (keys.map (fun a =>
    ((dedupList (get_daughters (ds a).decays)).zip (ds a).decays).filterMap
      (fun dd =>
        if dd.1 = k then
          some (mkEdge a k ((mkNuclideFromData ds src a).lamda) dd.2)
        else none))).flatten

/-- The parents and daughters relations of a built chain are mutual
inverses: `B ∈ A.daughters` iff `A ∈ B.parents`, with object references
modelled by registry keys. -/
def MutualInv (chain : AList Nuclide) : Prop :=
  ∀ p ∈ chain, ∀ q ∈ chain, (q.1 ∈ p.2.daughters ↔ p.1 ∈ q.2.parents)

/-- The per-pair content of claim C5 as stated: for every chain member `p`,
every decay record of its data, and every chain member `q` whose key is that
record's daughter name, exactly one `Decay` edge with parent `p` sits in
`q`'s incoming sources, and it carries that record's percentage divided
by 100. -/
def C5Concl (ds : String → NucData) (chain : AList Nuclide) : Prop :=
  ∀ p ∈ chain, ∀ dec ∈ (ds p.1).decays, ∀ q ∈ chain,
    q.1 = daughterName dec →
    (q.2.sources.filter (fun e => e.parent == p.1)).map
        (fun e => (e.daughter, e.decay_ratio)) =
      [(daughterName dec, dec.decay_pct / 100)]

/-- Data source of a two-member line: `a2` decays 100% into `b2`, which is
stable. -/
def dsLine : String → NucData := fun s =>
  if s = "a2" then
    { symbol := "a", n := 1, z := 1, atomic_mass := 1,
      half_life_sec := .num 1, decays := [⟨100, "b", 1, 1⟩] }
  else
    { symbol := "b", n := 1, z := 1, atomic_mass := 1,
      half_life_sec := .empty, decays := [] }

/-- Source mapping for the line input: 1 kg of `a2`. -/
def srcLine : AList ℚ := [("a2", 1)]

/-- The chain `get_nuclides dsLine srcLine` terminates with. -/
def chainLineVal : AList Nuclide :=
  [("a2", { mkNuclideFromData dsLine srcLine "a2" with daughters := ["b2"] }),
   ("b2", { mkNuclideFromData dsLine srcLine "b2" with
            parents := ["a2"]
            sources := [mkEdge "a2" "b2"
              (mkNuclideFromData dsLine srcLine "a2").lamda ⟨100, "b", 1, 1⟩] })]

/-- Data source where `a2` has two decay records with the same daughter
name `b2` (a 60% and a 40% channel); `b2` is stable. -/
def dsDup : String → NucData := fun s =>
  if s = "a2" then
    { symbol := "a", n := 1, z := 1, atomic_mass := 1,
      half_life_sec := .num 1,
      decays := [⟨60, "b", 1, 1⟩, ⟨40, "b", 1, 1⟩] }
  else
    { symbol := "b", n := 1, z := 1, atomic_mass := 1,
      half_life_sec := .empty, decays := [] }

/-- Source mapping for the duplicate-daughter input: 1 kg of `a2`. -/
def srcDup : AList ℚ := [("a2", 1)]

/-- The chain `get_nuclides dsDup srcDup` terminates with: only the 60%
record produced an edge, the 40% record was dropped by the set/list zip. -/
def chainDupVal : AList Nuclide :=
  [("a2", { mkNuclideFromData dsDup srcDup "a2" with daughters := ["b2"] }),
   ("b2", { mkNuclideFromData dsDup srcDup "b2" with
            parents := ["a2"]
            sources := [mkEdge "a2" "b2"
              (mkNuclideFromData dsDup srcDup "a2").lamda ⟨60, "b", 1, 1⟩] })]

/-! ## The third pass under arbitrary set-iteration orders

CPython iterates a `set` in hash-table order, which is not a function of
insertion order.  The pass of `main.py` lines 102-111 iterates each key's
`parents` set (line 104) and `daughters` set (line 106); the functions
`pord` and `dord` below supply, for each key, the order in which those two
sets are enumerated.  A faithful enumeration of the daughters set is any
duplicate-free permutation of its elements, stated as
`(dord k).Perm (dedupList (get_daughters (ds k).decays))`; the theorems
below quantify over every such enumeration. -/

/-- The third pass of `get_nuclides` (`main.py` lines 99-111) with the
iteration order of each key's `parents` set given by `pord` and of its
`daughters` set by `dord`: for each `nuclide_dict` item in insertion order,
wire the parent references in `pord` order, then zip the daughter set,
enumerated in `dord` order, with the raw decays list and build one `Decay`
edge per zipped pair. -/
def thirdPassOrd (pord dord : String → List String) (objs : AList Nuclide)
    (dict : AList Entry) : Except String (AList Nuclide × List String) :=
  dict.foldlM (fun acc kv => do
      match alFind acc.1 kv.1 with
      | none => .error ("KeyError: " ++ kv.1)
      | some _ =>
          let o1 ← (pord kv.1).foldlM (fun o p => addParentK o kv.1 p) acc.1
          let o2 ← ((dord kv.1).zip kv.2.decays).foldlM
              (fun o dd => addDaughterEdge o kv.1 dd) o1
          .ok (o2, acc.2 ++ [kv.1]))
    (objs, [])

/-- `get_nuclides` (`main.py` lines 62-113) with the set-iteration orders of
the third pass supplied by `pord` / `dord`; discovery loop and parent pass
are unaffected by set iteration order up to set membership. -/
def get_nuclidesOrd (pord dord : String → List String)
    (ds : String → NucData) (src : AList ℚ) (fuel : Nat) :
    Option (Except String (AList Nuclide)) :=
  match discoverLoop ds src fuel (keysOf src).reverse [] [] with
  | none => none
  | some (objs, dict) =>
      some (do
        let dict2 ← fillParents dict
        let r ← thirdPassOrd pord dord objs dict2
        .ok (r.2.map (fun k => (k, ((alFind r.1 k).getD default)))))

/-- The `Decay` edges the order-parametrized third pass appends to `k`'s
`_sources` while processing parent `a` with discovery entry `e`. -/
def edgesFromIntoOrd (dord : String → List String) (objs : AList Nuclide)
    (a : String) (e : Entry) (k : String) : List Decay :=
  ((dord a).zip e.decays).filterMap (fun dd =>
    if dd.1 = k then some (mkEdge a k (lamOf objs a) dd.2) else none)

/-- All `Decay` edges the whole order-parametrized third pass appends to
`k`'s `_sources`, in pass order. -/
def passSourcesOrd (dord : String → List String) (objs : AList Nuclide)
    (items : AList Entry) (k : String) : List Decay :=
  (items.map (fun kv => edgesFromIntoOrd dord objs kv.1 kv.2 k)).flatten

/-- All decay edges the order-parametrized build attaches to `k`'s
`_sources`, expressed purely in terms of the data source and the daughter
enumeration `dord`. -/
def edgesIntoOrd (dord : String → List String) (ds : String → NucData)
    (src : AList ℚ) (keys : List String) (k : String) : List Decay :=
  (keys.map (fun a =>
    ((dord a).zip (ds a).decays).filterMap
      (fun dd =>
        if dd.1 = k then
          some (mkEdge a k ((mkNuclideFromData ds src a).lamda) dd.2)
        else none))).flatten

/-- The order-invariant content of claim C5 as amended: for every chain
member `p` and every chain member `q`, if `q`'s key is among the daughter
names of `p`'s decay records then exactly one `Decay` edge with parent `p`
sits in `q`'s incoming sources, carrying the percentage (divided by 100) of
one of the first `s` records of `p`, where `s` is the number of distinct
daughter names of `p`; and if `q`'s key is not a daughter name of `p`, no
edge with parent `p` sits in `q`'s sources.  Which of the first `s` records
pairs with which daughter depends on the set-iteration order and is not
claimed. -/
def C5ConclOrd (ds : String → NucData) (chain : AList Nuclide) : Prop :=
  ∀ p ∈ chain, ∀ q ∈ chain,
    (q.1 ∈ get_daughters (ds p.1).decays →
      ∃ dec ∈ (ds p.1).decays.take
          (dedupList (get_daughters (ds p.1).decays)).length,
        (q.2.sources.filter (fun e => e.parent == p.1)).map
            (fun e => (e.daughter, e.decay_ratio)) =
          [(q.1, dec.decay_pct / 100)]) ∧
    (q.1 ∉ get_daughters (ds p.1).decays →
      q.2.sources.filter (fun e => e.parent == p.1) = [])

/-- A daughter-set enumeration for the `dsLine` input: the canonical
duplicate-free order (any other enumeration is a permutation of it). -/
def dordLine : String → List String := fun k =>
  dedupList (get_daughters (dsLine k).decays)

/-- A parents-set enumeration for the `dsLine` input. -/
def pordLine : String → List String := fun k =>
  if k = "b2" then ["a2"] else []

/-! ## List helper lemmas -/

lemma alFind_alSet_self {α : Type} (d : AList α) (k : String) (v : α) :
    alFind (alSet d k v) k = some v := by
  induction d with
  | nil => simp [alSet, alFind]
  | cons kv rest ih =>
      by_cases h : kv.1 = k
      · simp [alSet, alFind, h]
      · simp [alSet, alFind, h, ih]

lemma alFind_alSet_ne {α : Type} (d : AList α) {k k' : String} (v : α)
    (h : k' ≠ k) : alFind (alSet d k v) k' = alFind d k' := by
  induction d with
  | nil => simp [alSet, alFind, Ne.symm h]
  | cons kv rest ih =>
      by_cases hk : kv.1 = k
      · subst hk
        simp [alSet, alFind, Ne.symm h]
      · by_cases hk' : kv.1 = k'
        · simp [alSet, alFind, hk, hk', h]
        · simp [alSet, alFind, hk, hk', h, ih]

lemma alSet_alSet {α : Type} (d : AList α) (k : String) (v w : α) :
    alSet (alSet d k v) k w = alSet d k w := by
  induction d with
  | nil => simp [alSet]
  | cons kv rest ih =>
      by_cases h : kv.1 = k
      · simp [alSet, h]
      · simp [alSet, h, ih]

lemma alFind_eq_none_iff {α : Type} (d : AList α) (k : String) :
    alFind d k = none ↔ k ∉ keysOf d := by
  induction d with
  | nil => simp [alFind, keysOf]
  | cons kv rest ih =>
      by_cases h : kv.1 = k
      · simp [alFind, keysOf, h]
      · simp [alFind, keysOf, h, ih, Ne.symm h]

lemma alFind_mem {α : Type} {d : AList α} {k : String} {v : α}
    (h : alFind d k = some v) : (k, v) ∈ d := by
  induction d with
  | nil => simp [alFind] at h
  | cons kv rest ih =>
      obtain ⟨a, b⟩ := kv
      by_cases hk : a = k
      · subst hk
        simp [alFind] at h
        subst h
        exact List.mem_cons_self _ _
      · simp [alFind, hk] at h
        exact List.mem_cons_of_mem _ (ih h)

lemma alFind_isSome_iff {α : Type} (d : AList α) (k : String) :
    (alFind d k).isSome ↔ k ∈ keysOf d := by
  constructor
  · intro hs
    obtain ⟨v, hv⟩ := Option.isSome_iff_exists.1 hs
    exact List.mem_map_of_mem Prod.fst (alFind_mem hv)
  · intro hk
    by_contra hns
    rw [Option.not_isSome_iff_eq_none] at hns
    exact (alFind_eq_none_iff d k).1 hns hk

lemma keysOf_alSet_mem {α : Type} (d : AList α) (k : String) (v : α)
    (h : k ∈ keysOf d) : keysOf (alSet d k v) = keysOf d := by
  induction d with
  | nil => simp [keysOf] at h
  | cons kv rest ih =>
      by_cases hk : kv.1 = k
      · simp [alSet, keysOf, hk]
      · have hmem : k ∈ keysOf rest := by
          rcases (by simpa [keysOf] using h : k = kv.1 ∨ k ∈ keysOf rest) with h' | h'
          · exact absurd h'.symm hk
          · exact h'
        have h3 : keysOf (alSet rest k v) = keysOf rest := ih hmem
        simp only [alSet, if_neg hk, keysOf, List.map_cons]
        rw [show List.map Prod.fst (alSet rest k v) = keysOf (alSet rest k v) from rfl,
          h3]
        rfl

lemma keysOf_alSet_not_mem {α : Type} (d : AList α) (k : String) (v : α)
    (h : k ∉ keysOf d) : keysOf (alSet d k v) = keysOf d ++ [k] := by
  induction d with
  | nil => simp [alSet, keysOf]
  | cons kv rest ih =>
      obtain ⟨a, b⟩ := kv
      rw [keysOf, List.map_cons, List.mem_cons] at h
      push_neg at h
      have hne : ¬(a = k) := fun e => h.1 e.symm
      simp only [alSet, if_neg hne, keysOf, List.map_cons]
      rw [show List.map Prod.fst (alSet rest k v) = keysOf (alSet rest k v) from rfl,
        ih h.2]
      rfl

lemma mem_alFind_of_nodup {α : Type} {d : AList α} {kv : String × α}
    (hnd : (keysOf d).Nodup) (h : kv ∈ d) : alFind d kv.1 = some kv.2 := by
  induction d with
  | nil => simp at h
  | cons kv' rest ih =>
      rcases List.mem_cons.1 h with h' | h'
      · subst h'
        simp [alFind]
      · have h1 : kv'.1 ≠ kv.1 := by
          intro e
          have : kv.1 ∈ keysOf rest := List.mem_map_of_mem Prod.fst h'
          rw [← e] at this
          exact (List.nodup_cons.1 (by simpa [keysOf] using hnd)).1 this
        have h2 : (keysOf rest).Nodup := (List.nodup_cons.1 (by simpa [keysOf] using hnd)).2
        simp [alFind, h1, ih h2 h']

lemma mem_dedupAdd (l : List String) (x y : String) :
    y ∈ dedupAdd l x ↔ y ∈ l ∨ y = x := by
  by_cases h : x ∈ l
  · constructor
    · intro hy
      exact Or.inl (by simpa [dedupAdd, h] using hy)
    · intro hy
      rcases hy with hy | rfl
      · simpa [dedupAdd, h]
      · simp [dedupAdd, h]
  · simp [dedupAdd, h]

lemma mem_foldl_dedupAdd (l : List String) :
    ∀ (acc : List String) (x : String),
      x ∈ l.foldl dedupAdd acc ↔ x ∈ acc ∨ x ∈ l := by
  induction l with
  | nil => simp
  | cons a t ih =>
      intro acc x
      rw [List.foldl_cons, ih, mem_dedupAdd]
      simp [or_assoc]

lemma nodup_foldl_dedupAdd (l : List String) :
    ∀ (acc : List String), acc.Nodup → (l.foldl dedupAdd acc).Nodup := by
  induction l with
  | nil => exact fun acc h => h
  | cons a t ih =>
      intro acc h
      refine ih _ ?_
      by_cases ha : a ∈ acc
      · simpa [dedupAdd, ha]
      · have hgoal : (acc ++ [a]).Nodup := by
          rw [List.nodup_append_comm]
          exact List.nodup_cons.2 ⟨ha, h⟩
        simpa [dedupAdd, ha] using hgoal

lemma length_foldl_dedupAdd (l : List String) :
    ∀ (acc : List String),
      (l.foldl dedupAdd acc).length ≤ acc.length + l.length := by
  induction l with
  | nil => simp
  | cons a t ih =>
      intro acc
      refine le_trans (ih (dedupAdd acc a)) ?_
      by_cases ha : a ∈ acc
      · simp [dedupAdd, ha]
      · simp [dedupAdd, ha]
        omega

lemma foldl_dedupAdd_of_nodup (l : List String) :
    ∀ (acc : List String), (acc ++ l).Nodup →
      l.foldl dedupAdd acc = acc ++ l := by
  induction l with
  | nil => simp
  | cons a t ih =>
      intro acc h
      have ha : a ∉ acc := by
        intro hmem
        have := List.disjoint_of_nodup_append h
        exact this hmem (by simp)
      rw [List.foldl_cons]
      have : dedupAdd acc a = acc ++ [a] := by simp [dedupAdd, ha]
      rw [this, ih (acc ++ [a]) (by simpa using h)]
      simp

lemma mem_dedupList (l : List String) (x : String) :
    x ∈ dedupList l ↔ x ∈ l := by
  rw [dedupList, mem_foldl_dedupAdd]
  simp

lemma nodup_dedupList (l : List String) : (dedupList l).Nodup :=
  nodup_foldl_dedupAdd l [] List.nodup_nil

lemma length_dedupList (l : List String) :
    (dedupList l).length ≤ l.length := by
  simpa using length_foldl_dedupAdd l []

lemma dedupList_eq_self {l : List String} (h : l.Nodup) : dedupList l = l := by
  simpa using foldl_dedupAdd_of_nodup l [] (by simpa using h)

lemma zip_fst_of_le {α β : Type} :
    ∀ (l1 : List α) (l2 : List β), l1.length ≤ l2.length →
      (l1.zip l2).map Prod.fst = l1 := by
  intro l1
  induction l1 with
  | nil => intro l2 h; simp
  | cons a t ih =>
      intro l2 h
      cases l2 with
      | nil => simp at h
      | cons b t2 => simpa using ih t2 (by simpa using h)

lemma alGetQ {α β : Type} (l1 : List α) (l2 : List β) (j : Nat) :
    (l1.zip l2)[j]? =
      (l1[j]?).bind (fun a => (l2[j]?).map (fun b => (a, b))) := by
  induction l1 generalizing l2 j with
  | nil => simp
  | cons a t ih =>
      cases l2 with
      | nil => simp
      | cons b t2 =>
          cases j with
          | zero => simp
          | succ j' => simpa using ih t2 j'

lemma mapGetQ {α β : Type} (f : α → β) (l : List α) (j : Nat) :
    (l.map f)[j]? = (l[j]?).map f := by
  induction l generalizing j with
  | nil => simp
  | cons a t ih =>
      cases j with
      | zero => simp
      | succ j' => simp

/-! ## The discovery loop: one-step specification and invariant -/

lemma alSet_self_eq {α : Type} :
    ∀ (d : AList α) (k : String) (v : α), alFind d k = some v →
      alSet d k v = d := by
  intro d
  induction d with
  | nil => intro k v h; simp [alFind] at h
  | cons kv rest ih =>
      intro k v h
      obtain ⟨a, b⟩ := kv
      by_cases hk : a = k
      · subst hk
        simp [alFind] at h
        simp [alSet, h]
      · simp [alFind, hk] at h
        simp [alSet, hk, ih k v h]

lemma Entry.ext' {x y : Entry} (h1 : x.parents = y.parents)
    (h2 : x.daughters = y.daughters) (h3 : x.decays = y.decays) : x = y := by
  cases x
  cases y
  simp_all

lemma foldl_addDaughterStep (nuc : String) (decays : List DecayRec) :
    ∀ (names : List String) (dict : AList Entry) (stack : List String)
      (e : Entry), alFind dict nuc = some e →
      names.foldl (addDaughterStep nuc decays) (dict, stack) =
        (alSet dict nuc (names.foldl (entryStep decays) e),
         names.reverse ++ stack) := by
  intro names
  induction names with
  | nil =>
      intro dict stack e he
      simp only [List.foldl_nil, List.reverse_nil, List.nil_append]
      rw [alSet_self_eq dict nuc e he]
  | cons nm rest ih =>
      intro dict stack e he
      rw [List.foldl_cons]
      have hstep : addDaughterStep nuc decays (dict, stack) nm =
          (alSet dict nuc (entryStep decays e nm), nm :: stack) := by
        simp [addDaughterStep, he, entryStep]
      rw [hstep, ih _ _ (entryStep decays e nm) (alFind_alSet_self dict nuc _),
        alSet_alSet]
      simp

lemma entryFold_parents (decays : List DecayRec) :
    ∀ (names : List String) (e : Entry),
      (names.foldl (entryStep decays) e).parents = e.parents := by
  intro names
  induction names with
  | nil => intro e; rfl
  | cons nm rest ih => intro e; simpa [entryStep] using ih _

lemma entryFold_daughters (decays : List DecayRec) :
    ∀ (names : List String) (e : Entry),
      (names.foldl (entryStep decays) e).daughters =
        names.foldl dedupAdd e.daughters := by
  intro names
  induction names with
  | nil => intro e; rfl
  | cons nm rest ih => intro e; simpa [entryStep] using ih _

lemma entryFold_decays (decays : List DecayRec) :
    ∀ (names : List String) (e : Entry), names ≠ [] →
      (names.foldl (entryStep decays) e).decays = decays := by
  intro names
  induction names with
  | nil => intro e h; exact absurd rfl h
  | cons nm rest ih =>
      intro e h
      rw [List.foldl_cons]
      cases hr : rest with
      | nil => rfl
      | cons r rs =>
          rw [← hr]
          exact ih _ (by simp [hr])

lemma entryFold_finalEntry (decays : List DecayRec) :
    (get_daughters decays).foldl (entryStep decays)
      { parents := [], daughters := [], decays := [] } = finalEntry decays := by
  refine Entry.ext' ?_ ?_ ?_
  · rw [entryFold_parents]
    rfl
  · rw [entryFold_daughters]
    rfl
  · cases decays with
    | nil => rfl
    | cons d ds =>
        rw [entryFold_decays (d :: ds) (get_daughters (d :: ds)) _
          (by simp [get_daughters])]
        rfl

lemma processNuc_spec (ds : String → NucData) (src : AList ℚ) (nuc : String)
    (objs : AList Nuclide) (dict : AList Entry) (stack : List String) :
    processNuc ds src nuc objs dict stack =
      ((if (alFind dict nuc).isSome then objs
        else alSet objs nuc (mkNuclideFromData ds src nuc)),
       alSet dict nuc (finalEntry (ds nuc).decays),
       (get_daughters (ds nuc).decays).reverse ++ stack) := by
  simp only [processNuc]
  rw [foldl_addDaughterStep nuc (ds nuc).decays (get_daughters (ds nuc).decays)
    _ stack { parents := [], daughters := [], decays := [] }
    (alFind_alSet_self dict nuc _)]
  dsimp only
  rw [alSet_alSet, entryFold_finalEntry]

/-- The invariant the discovery loop maintains: object and dict keys agree,
keys are distinct, every dict entry is the steady entry of its record, every
constructed object is the record's `Nuclide`, and every recorded daughter
name is either already a key or still on the worklist. -/
structure BuildInv (ds : String → NucData) (src : AList ℚ)
    (stack : List String) (objs : AList Nuclide) (dict : AList Entry) :
    Prop where
  keys_eq : keysOf objs = keysOf dict
  nodup : (keysOf dict).Nodup
  entries : ∀ k, k ∈ keysOf dict →
    alFind dict k = some (finalEntry (ds k).decays)
  objsVals : ∀ k, k ∈ keysOf objs →
    alFind objs k = some (mkNuclideFromData ds src k)
  closed : ∀ k, k ∈ keysOf dict →
    ∀ d ∈ dedupList (get_daughters (ds k).decays),
      d ∈ keysOf dict ∨ d ∈ stack

lemma BuildInv_init (ds : String → NucData) (src : AList ℚ)
    (stack : List String) : BuildInv ds src stack [] [] := by
  refine ⟨rfl, List.nodup_nil, ?_, ?_, ?_⟩ <;> intro k hk <;> simp [keysOf] at hk

lemma BuildInv_processNuc {ds : String → NucData} {src : AList ℚ}
    {nuc : String} {stack : List String} {objs : AList Nuclide}
    {dict : AList Entry} (hinv : BuildInv ds src (nuc :: stack) objs dict) :
    BuildInv ds src
      ((get_daughters (ds nuc).decays).reverse ++ stack)
      (if (alFind dict nuc).isSome then objs
       else alSet objs nuc (mkNuclideFromData ds src nuc))
      (alSet dict nuc (finalEntry (ds nuc).decays)) := by
  by_cases hmem : nuc ∈ keysOf dict
  · have hsome : (alFind dict nuc).isSome = true := (alFind_isSome_iff dict nuc).2 hmem
    rw [if_pos hsome]
    have hkeys : keysOf (alSet dict nuc (finalEntry (ds nuc).decays)) = keysOf dict :=
      keysOf_alSet_mem dict nuc _ hmem
    refine ⟨by rw [hkeys]; exact hinv.keys_eq, by rw [hkeys]; exact hinv.nodup,
      ?_, hinv.objsVals, ?_⟩
    · intro k hk
      rw [hkeys] at hk
      by_cases hkn : k = nuc
      · subst hkn
        exact alFind_alSet_self dict k _
      · rw [alFind_alSet_ne dict _ hkn]
        exact hinv.entries k hk
    · intro k hk d hd
      rw [hkeys] at hk ⊢
      rcases hinv.closed k hk d hd with hcase | hcase
      · exact Or.inl hcase
      · rcases List.mem_cons.1 hcase with rfl | hcase
        · exact Or.inl hmem
        · exact Or.inr (List.mem_append_right _ hcase)
  · have hnone : alFind dict nuc = none := (alFind_eq_none_iff dict nuc).2 hmem
    rw [hnone]
    simp only [Option.isSome_none, Bool.false_eq_true, if_false]
    have hkeys : keysOf (alSet dict nuc (finalEntry (ds nuc).decays)) =
        keysOf dict ++ [nuc] := keysOf_alSet_not_mem dict nuc _ hmem
    have hmemO : nuc ∉ keysOf objs := by rw [hinv.keys_eq]; exact hmem
    have hkeysO : keysOf (alSet objs nuc (mkNuclideFromData ds src nuc)) =
        keysOf objs ++ [nuc] := keysOf_alSet_not_mem objs nuc _ hmemO
    refine ⟨by rw [hkeys, hkeysO, hinv.keys_eq], ?_, ?_, ?_, ?_⟩
    · rw [hkeys, List.nodup_append_comm]
      exact List.nodup_cons.2 ⟨hmem, hinv.nodup⟩
    · intro k hk
      by_cases hkn : k = nuc
      · subst hkn
        exact alFind_alSet_self dict k _
      · rw [alFind_alSet_ne dict _ hkn]
        rw [hkeys] at hk
        rcases List.mem_append.1 hk with hk | hk
        · exact hinv.entries k hk
        · exact absurd (List.mem_singleton.1 hk) hkn
    · intro k hk
      by_cases hkn : k = nuc
      · subst hkn
        rw [alFind_alSet_self objs k _]
      · rw [alFind_alSet_ne objs _ hkn]
        rw [hkeysO] at hk
        rcases List.mem_append.1 hk with hk | hk
        · exact hinv.objsVals k hk
        · exact absurd (List.mem_singleton.1 hk) hkn
    · intro k hk d hd
      rw [hkeys] at hk ⊢
      by_cases hkn : k = nuc
      · subst hkn
        refine Or.inr (List.mem_append_left _ ?_)
        rw [List.mem_reverse]
        exact (mem_dedupList _ d).1 hd
      · have hk' : k ∈ keysOf dict := by
          rcases List.mem_append.1 hk with hk | hk
          · exact hk
          · exact absurd (List.mem_singleton.1 hk) hkn
        rcases hinv.closed k hk' d hd with hcase | hcase
        · exact Or.inl (List.mem_append_left _ hcase)
        · rcases List.mem_cons.1 hcase with rfl | hcase
          · exact Or.inl (List.mem_append_right _ (by simp))
          · exact Or.inr (List.mem_append_right _ hcase)

lemma discoverLoop_inv {ds : String → NucData} {src : AList ℚ} :
    ∀ (fuel : Nat) (stack : List String) (objs : AList Nuclide)
      (dict : AList Entry), BuildInv ds src stack objs dict →
      ∀ objsF dictF,
        discoverLoop ds src fuel stack objs dict = some (objsF, dictF) →
        BuildInv ds src [] objsF dictF := by
  intro fuel
  induction fuel with
  | zero => intro stack objs dict _ objsF dictF h; exact absurd h (by simp [discoverLoop])
  | succ fuel ih =>
      intro stack objs dict hinv objsF dictF h
      cases stack with
      | nil =>
          have : objs = objsF ∧ dict = dictF := by
            simpa [discoverLoop] using h
          rw [← this.1, ← this.2]
          exact hinv
      | cons nuc rest =>
          have hstep := @BuildInv_processNuc ds src nuc rest objs dict hinv
          have hh : discoverLoop ds src fuel
              (processNuc ds src nuc objs dict rest).2.2
              (processNuc ds src nuc objs dict rest).1
              (processNuc ds src nuc objs dict rest).2.1 =
              some (objsF, dictF) := h
          have hstep' : BuildInv ds src
              (processNuc ds src nuc objs dict rest).2.2
              (processNuc ds src nuc objs dict rest).1
              (processNuc ds src nuc objs dict rest).2.1 := by
            rw [processNuc_spec]
            exact hstep
          exact ih _ _ _ hstep' objsF dictF hh

/-! ## The parent pass: characterization -/

lemma fillParents_inner (a : String) :
    ∀ (ds0 : List String) (acc : AList Entry),
      (∀ dg ∈ ds0, dg ∈ keysOf acc) →
      ∃ acc',
        ds0.foldlM (fun acc2 dg => fillParentsStep acc2 a dg) acc = .ok acc' ∧
        keysOf acc' = keysOf acc ∧
        (∀ k e, alFind acc k = some e → ∃ e', alFind acc' k = some e' ∧
          e'.daughters = e.daughters ∧ e'.decays = e.decays ∧
          (∀ x, x ∈ e'.parents ↔ (x ∈ e.parents ∨ (x = a ∧ k ∈ ds0)))) := by
  intro ds0
  induction ds0 with
  | nil =>
      intro acc _
      exact ⟨acc, rfl, rfl, fun k e he => ⟨e, he, rfl, rfl, by simp⟩⟩
  | cons dg rest ih =>
      intro acc hcl
      have hdg : dg ∈ keysOf acc := hcl dg (by simp)
      obtain ⟨e0, he0⟩ : ∃ e0, alFind acc dg = some e0 :=
        Option.isSome_iff_exists.1 ((alFind_isSome_iff acc dg).2 hdg)
      have hstep : fillParentsStep acc a dg =
          .ok (alSet acc dg { e0 with parents := dedupAdd e0.parents a }) := by
        simp [fillParentsStep, he0]
      have hkeys1 : keysOf (alSet acc dg { e0 with parents := dedupAdd e0.parents a }) =
          keysOf acc := keysOf_alSet_mem _ _ _ hdg
      have hcl1 : ∀ x ∈ rest,
          x ∈ keysOf (alSet acc dg { e0 with parents := dedupAdd e0.parents a }) := by
        intro x hx
        rw [hkeys1]
        exact hcl x (List.mem_cons_of_mem _ hx)
      obtain ⟨acc', hfold, hkeys', hchar⟩ := ih _ hcl1
      refine ⟨acc', ?_, by rw [hkeys', hkeys1], ?_⟩
      · rw [List.foldlM_cons, hstep]
        simpa using hfold
      · intro k e he
        by_cases hk : k = dg
        · subst hk
          have hee : e = e0 := by
            rw [he] at he0
            exact Option.some.inj he0
          obtain ⟨e', he', hd', hdec', hpar'⟩ :=
            hchar k { e0 with parents := dedupAdd e0.parents a }
              (alFind_alSet_self acc k _)
          refine ⟨e', he', by rw [hd', hee], by rw [hdec', hee], ?_⟩
          intro x
          rw [hpar']
          show x ∈ dedupAdd e0.parents a ∨ (x = a ∧ k ∈ rest) ↔ _
          rw [mem_dedupAdd, hee]
          simp only [List.mem_cons, true_or, and_true, eq_self_iff_true]
          tauto
        · obtain ⟨e', he', hd', hdec', hpar'⟩ :=
            hchar k e (by rw [alFind_alSet_ne acc _ hk]; exact he)
          refine ⟨e', he', hd', hdec', ?_⟩
          intro x
          rw [hpar']
          simp only [List.mem_cons]
          tauto

lemma fillParents_outer :
    ∀ (items : AList Entry) (acc : AList Entry),
      (∀ kv ∈ items, ∀ dg ∈ kv.2.daughters, dg ∈ keysOf acc) →
      ∃ acc',
        items.foldlM (fun acc kv =>
          kv.2.daughters.foldlM
            (fun acc2 dg => fillParentsStep acc2 kv.1 dg) acc) acc = .ok acc' ∧
        keysOf acc' = keysOf acc ∧
        (∀ k e, alFind acc k = some e → ∃ e', alFind acc' k = some e' ∧
          e'.daughters = e.daughters ∧ e'.decays = e.decays ∧
          (∀ x, x ∈ e'.parents ↔
            (x ∈ e.parents ∨ ∃ kv, kv ∈ items ∧ kv.1 = x ∧ k ∈ kv.2.daughters))) := by
  intro items
  induction items with
  | nil =>
      intro acc _
      exact ⟨acc, rfl, rfl, fun k e he => ⟨e, he, rfl, rfl, by simp⟩⟩
  | cons kv0 rest ih =>
      intro acc hcl
      obtain ⟨acc1, hf1, hk1, hc1⟩ :=
        fillParents_inner kv0.1 kv0.2.daughters acc (hcl kv0 (by simp))
      have hclr : ∀ kv ∈ rest, ∀ dg ∈ kv.2.daughters, dg ∈ keysOf acc1 := by
        intro kv hkv dg hdg
        rw [hk1]
        exact hcl kv (List.mem_cons_of_mem _ hkv) dg hdg
      obtain ⟨acc', hf', hk', hc'⟩ := ih acc1 hclr
      refine ⟨acc', ?_, by rw [hk', hk1], ?_⟩
      · rw [List.foldlM_cons, hf1]
        simpa using hf'
      · intro k e he
        obtain ⟨e1, he1, hd1, hdec1, hp1⟩ := hc1 k e he
        obtain ⟨e', he', hd', hdec', hp'⟩ := hc' k e1 he1
        refine ⟨e', he', by rw [hd', hd1], by rw [hdec', hdec1], ?_⟩
        intro x
        rw [hp', hp1]
        constructor
        · rintro ((h0 | ⟨hxa, hkd0⟩) | ⟨kv, hkv, hx, hkd⟩)
          · exact Or.inl h0
          · exact Or.inr ⟨kv0, List.mem_cons_self _ _, hxa.symm, hkd0⟩
          · exact Or.inr ⟨kv, List.mem_cons_of_mem _ hkv, hx, hkd⟩
        · rintro (h0 | ⟨kv, hmem, hx, hkd⟩)
          · exact Or.inl (Or.inl h0)
          · rcases List.mem_cons.1 hmem with rfl | hmem
            · exact Or.inl (Or.inr ⟨hx.symm, hkd⟩)
            · exact Or.inr ⟨kv, hmem, hx, hkd⟩

lemma fillParents_spec {dict : AList Entry}
    (hnd : (keysOf dict).Nodup)
    (hcl : ∀ k e, alFind dict k = some e → ∀ dg ∈ e.daughters, dg ∈ keysOf dict) :
    ∃ dict', fillParents dict = .ok dict' ∧
      keysOf dict' = keysOf dict ∧
      ∀ k e, alFind dict k = some e → ∃ e', alFind dict' k = some e' ∧
        e'.daughters = e.daughters ∧ e'.decays = e.decays ∧
        (∀ x, x ∈ e'.parents ↔
          (x ∈ e.parents ∨ ∃ ex, alFind dict x = some ex ∧ k ∈ ex.daughters)) := by
  have hclitems : ∀ kv ∈ dict, ∀ dg ∈ kv.2.daughters, dg ∈ keysOf dict := by
    intro kv hkv dg hdg
    exact hcl kv.1 kv.2 (mem_alFind_of_nodup hnd hkv) dg hdg
  obtain ⟨d', hf, hk, hc⟩ := fillParents_outer dict dict hclitems
  refine ⟨d', hf, hk, ?_⟩
  intro k e he
  obtain ⟨e', he', hd', hdec', hp'⟩ := hc k e he
  refine ⟨e', he', hd', hdec', ?_⟩
  intro x
  rw [hp']
  constructor
  · rintro (h0 | ⟨kv, hkv, rfl, hkd⟩)
    · exact Or.inl h0
    · exact Or.inr ⟨kv.2, mem_alFind_of_nodup hnd hkv, hkd⟩
  · rintro (h0 | ⟨ex, hex, hkd⟩)
    · exact Or.inl h0
    · exact Or.inr ⟨(x, ex), alFind_mem hex, rfl, hkd⟩

/-! ## The third pass: characterization -/

lemma mkDecay_ok_eq {a k : String} {l r : ℚ} {v : Decay}
    (h : mkDecay a k l r = .ok v) :
    v = { parent := a, daughter := k, lamda := l, decay_ratio := r,
          lamda_eff := l * r } := by
  by_cases hc : 0 ≤ r ∧ r ≤ 1
  · simp [mkDecay, hc] at h
    exact h.symm
  · simp [mkDecay, hc] at h

lemma foldlM_addParentK (nuc : String) :
    ∀ (ps : List String) (objs objs' : AList Nuclide),
      ps.foldlM (fun o p => addParentK o nuc p) objs = .ok objs' →
      keysOf objs' = keysOf objs ∧
      (∀ k o, alFind objs k = some o → ∃ o', alFind objs' k = some o' ∧
        o' = (if k = nuc then { o with parents := o.parents ++ ps } else o)) := by
  intro ps
  induction ps with
  | nil =>
      intro objs objs' h
      simp only [List.foldlM_nil] at h
      have : objs = objs' := by simpa [pure, Except.pure] using h
      subst this
      refine ⟨rfl, ?_⟩
      intro k o ho
      refine ⟨o, ho, ?_⟩
      split <;> simp
  | cons p ps ih =>
      intro objs objs' h
      rw [List.foldlM_cons] at h
      cases hstep : addParentK objs nuc p with
      | error e =>
          rw [hstep] at h
          simp [Bind.bind, Except.bind] at h
      | ok objs1 =>
          rw [hstep] at h
          have h' : ps.foldlM (fun o p => addParentK o nuc p) objs1 = .ok objs' := by
            simpa using h
          unfold addParentK at hstep
          cases hfp : alFind objs p with
          | none => rw [hfp] at hstep; simp at hstep
          | some w =>
              rw [hfp] at hstep
              cases hfn : alFind objs nuc with
              | none => rw [hfn] at hstep; simp at hstep
              | some onuc =>
                  rw [hfn] at hstep
                  have heq : objs1 =
                      alSet objs nuc { onuc with parents := onuc.parents ++ [p] } := by
                    simpa using hstep.symm
                  subst heq
                  obtain ⟨hkeys', hchar'⟩ := ih _ objs' h'
                  have hnk : nuc ∈ keysOf objs := by
                    rw [← alFind_isSome_iff, hfn]
                    rfl
                  refine ⟨by rw [hkeys', keysOf_alSet_mem objs nuc _ hnk], ?_⟩
                  intro k o ho
                  by_cases hk : k = nuc
                  · subst hk
                    have hoe : o = onuc := by
                      rw [ho] at hfn
                      exact Option.some.inj hfn
                    obtain ⟨o', ho', hval⟩ := hchar' k
                      { onuc with parents := onuc.parents ++ [p] }
                      (alFind_alSet_self objs k _)
                    refine ⟨o', ho', ?_⟩
                    rw [hval]
                    simp [hoe, List.append_assoc]
                  · obtain ⟨o', ho', hval⟩ := hchar' k o
                      (by rw [alFind_alSet_ne objs _ hk]; exact ho)
                    refine ⟨o', ho', ?_⟩
                    rw [hval]
                    simp [hk]

lemma exceptBind_ok {α β : Type} (a : α) (f : α → Except String β) :
    (Except.ok a >>= f) = f a := rfl

lemma exceptBind_error {α β : Type} (e : String) (f : α → Except String β) :
    ((Except.error e : Except String α) >>= f) = .error e := rfl

lemma getObj_some {objs : AList Nuclide} {k : String} {o : Nuclide}
    (h : alFind objs k = some o) : getObj objs k = .ok o := by
  simp [getObj, h]

lemma getObj_none {objs : AList Nuclide} {k : String}
    (h : alFind objs k = none) :
    getObj objs k = .error ("KeyError: " ++ k) := by
  simp [getObj, h]

lemma lamOf_alSet_self (objs : AList Nuclide) (k : String) (v : Nuclide) :
    lamOf (alSet objs k v) k = v.lamda := by
  simp [lamOf, alFind_alSet_self]

lemma lamOf_alSet_ne (objs : AList Nuclide) {k k' : String} (v : Nuclide)
    (h : k' ≠ k) : lamOf (alSet objs k v) k' = lamOf objs k' := by
  simp [lamOf, alFind_alSet_ne objs v h]

lemma foldlM_addDaughterEdge (nuc : String) :
    ∀ (zl : List (String × DecayRec)) (objs objs' : AList Nuclide),
      zl.foldlM (fun o dd => addDaughterEdge o nuc dd) objs = .ok objs' →
      keysOf objs' = keysOf objs ∧
      (∀ k o, alFind objs k = some o → ∃ o', alFind objs' k = some o' ∧
        o'.parents = o.parents ∧
        o'.lamda = o.lamda ∧
        o'.daughters = o.daughters ++ (if k = nuc then zl.map Prod.fst else []) ∧
        o'.sources = o.sources ++ zl.filterMap (fun dd =>
          if dd.1 = k then some (mkEdge nuc k (lamOf objs nuc) dd.2) else none)) := by
  intro zl
  induction zl with
  | nil =>
      intro objs objs' h
      simp only [List.foldlM_nil] at h
      have : objs = objs' := by simpa [pure, Except.pure] using h
      subst this
      refine ⟨rfl, ?_⟩
      intro k o ho
      exact ⟨o, ho, rfl, rfl, by split <;> simp, by simp⟩
  | cons dd rest ih =>
      intro objs objs' h
      obtain ⟨dg, dec⟩ := dd
      rw [List.foldlM_cons] at h
      cases hstep : addDaughterEdge objs nuc (dg, dec) with
      | error e =>
          rw [hstep] at h
          simp [Bind.bind, Except.bind] at h
      | ok objs1 =>
          rw [hstep] at h
          have h' : rest.foldlM (fun o dd => addDaughterEdge o nuc dd) objs1 =
              .ok objs' := by
            simpa using h
          unfold addDaughterEdge at hstep
          cases hfd : alFind objs dg with
          | none =>
              simp only [getObj_none hfd, exceptBind_error] at hstep
              simp at hstep
          | some dObj =>
          cases hfn : alFind objs nuc with
          | none =>
              simp only [getObj_some hfd, getObj_none hfn, exceptBind_ok,
                exceptBind_error] at hstep
              simp at hstep
          | some pObj =>
          simp only [getObj_some hfd, getObj_some hfn, exceptBind_ok] at hstep
          cases hmk : mkDecay nuc dg pObj.lamda (dec.decay_pct / 100) with
          | error e =>
              simp only [hmk, exceptBind_error] at hstep
              simp at hstep
          | ok d =>
          simp only [hmk, exceptBind_ok] at hstep
          have hdval := mkDecay_ok_eq hmk
          have hlam0 : lamOf objs nuc = pObj.lamda := by simp [lamOf, hfn]
          have hnk : nuc ∈ keysOf objs := by
            rw [← alFind_isSome_iff, hfn]
            rfl
          have hdk : dg ∈ keysOf objs := by
            rw [← alFind_isSome_iff, hfd]
            rfl
          by_cases hdgnuc : dg = nuc
          · -- self-loop: the daughter is the popped nuclide itself
            subst hdgnuc
            simp only [getObj_some (alFind_alSet_self objs dg _), exceptBind_ok,
              alSet_alSet, Except.ok.injEq] at hstep
            subst hstep
            obtain ⟨hkeys', hchar'⟩ := ih _ objs' h'
            refine ⟨?_, ?_⟩
            · rw [hkeys']
              exact keysOf_alSet_mem objs dg _ hdk
            · intro k o ho
              by_cases hk : k = dg
              · subst hk
                have hoe : o = pObj := by
                  rw [ho] at hfn
                  exact Option.some.inj hfn
                obtain ⟨o', ho', hp', hl', hd', hs'⟩ := hchar' k _
                  (alFind_alSet_self objs k _)
                have hlam1 : lamOf objs k = pObj.lamda := by
                  simp [lamOf, hfn]
                refine ⟨o', ho', by simp [hp', hoe], by simp [hl', hoe], ?_, ?_⟩
                · simp [hd', hoe, List.append_assoc]
                · rw [hs']
                  simp only [List.filterMap_cons, if_pos rfl]
                  rw [hdval]
                  simp [hoe, hlam1, lamOf_alSet_self, List.append_assoc, mkEdge]
              · obtain ⟨o', ho', hp', hl', hd', hs'⟩ := hchar' k o
                  (by rw [alFind_alSet_ne objs _ hk]; exact ho)
                have hlam1 : lamOf objs dg = pObj.lamda := by
                  simp [lamOf, hfn]
                refine ⟨o', ho', hp', hl', ?_, ?_⟩
                · rw [hd']
                  simp [hk]
                · rw [hs']
                  simp [hlam1, lamOf_alSet_self, Ne.symm hk]
          · -- distinct daughter
            have hAdg : alFind
                (alSet objs nuc { pObj with daughters := pObj.daughters ++ [dg] }) dg =
                some dObj := by
              rw [alFind_alSet_ne objs _ hdgnuc]
              exact hfd
            simp only [getObj_some hAdg, exceptBind_ok, Except.ok.injEq] at hstep
            subst hstep
            obtain ⟨hkeys', hchar'⟩ := ih _ objs' h'
            have hkeysA : keysOf
                (alSet objs nuc { pObj with daughters := pObj.daughters ++ [dg] }) =
                keysOf objs := keysOf_alSet_mem objs nuc _ hnk
            have hlam0' : lamOf objs nuc = pObj.lamda := by
              simp [lamOf, hfn]
            refine ⟨?_, ?_⟩
            · rw [hkeys', keysOf_alSet_mem _ dg _ (by rw [hkeysA]; exact hdk), hkeysA]
            · intro k o ho
              by_cases hknuc : k = nuc
              · subst hknuc
                have hoe : o = pObj := by
                  rw [ho] at hfn
                  exact Option.some.inj hfn
                obtain ⟨o', ho', hp', hl', hd', hs'⟩ := hchar' k _
                  (by rw [alFind_alSet_ne _ _ (fun e => hdgnuc e.symm)]
                      exact alFind_alSet_self objs k _)
                refine ⟨o', ho', by simp [hp', hoe], by simp [hl', hoe], ?_, ?_⟩
                · simp [hd', hoe, List.append_assoc]
                · rw [hs']
                  simp only [List.filterMap_cons, if_neg hdgnuc]
                  simp [hoe, hlam0', lamOf_alSet_self,
                    lamOf_alSet_ne _ _ (Ne.symm hdgnuc)]
              · by_cases hkdg : k = dg
                · subst hkdg
                  have hoe : o = dObj := by
                    rw [ho] at hfd
                    exact Option.some.inj hfd
                  obtain ⟨o', ho', hp', hl', hd', hs'⟩ := hchar' k _
                    (alFind_alSet_self _ k _)
                  refine ⟨o', ho', by simp [hp', hoe], by simp [hl', hoe], ?_, ?_⟩
                  · rw [hd']
                    simp [hknuc, hoe]
                  · rw [hs']
                    simp only [List.filterMap_cons, if_pos rfl]
                    rw [hdval]
                    simp [hoe, hlam0', lamOf_alSet_self,
                      lamOf_alSet_ne _ _ (Ne.symm hdgnuc),
                      List.append_assoc, mkEdge]
                · obtain ⟨o', ho', hp', hl', hd', hs'⟩ := hchar' k o
                    (by rw [alFind_alSet_ne _ _ hkdg, alFind_alSet_ne _ _ hknuc]
                        exact ho)
                  refine ⟨o', ho', hp', hl', ?_, ?_⟩
                  · rw [hd']
                    simp [hknuc]
                  · rw [hs']
                    simp only [List.filterMap_cons, if_neg (Ne.symm hkdg)]
                    simp [hlam0', lamOf_alSet_self,
                      lamOf_alSet_ne _ _ (Ne.symm hdgnuc)]


lemma passSources_cons (A : AList Nuclide) (kv : String × Entry)
    (rest : AList Entry) (k : String) :
    passSources A (kv :: rest) k =
      edgesFromInto A kv.1 kv.2 k ++ passSources A rest k := by
  simp [passSources]

lemma edgesFromInto_congr {A B : AList Nuclide} (a : String) (e : Entry)
    (k : String) (h : lamOf A a = lamOf B a) :
    edgesFromInto A a e k = edgesFromInto B a e k := by
  simp [edgesFromInto, h]

lemma passSources_congr {A B : AList Nuclide} (k : String) :
    ∀ (items : AList Entry), (∀ x, lamOf A x = lamOf B x) →
      passSources A items k = passSources B items k := by
  intro items h
  induction items with
  | nil => rfl
  | cons kv rest ih =>
      rw [passSources_cons, passSources_cons, ih,
        edgesFromInto_congr kv.1 kv.2 k (h kv.1)]

lemma lamOf_eq_of_char {A B : AList Nuclide}
    (hkeys : keysOf B = keysOf A)
    (hchar : ∀ k o, alFind A k = some o →
      ∃ o', alFind B k = some o' ∧ o'.lamda = o.lamda) :
    ∀ x, lamOf B x = lamOf A x := by
  intro x
  cases hf : alFind A x with
  | some o =>
      obtain ⟨o', ho', hl⟩ := hchar x o hf
      simp [lamOf, hf, ho', hl]
  | none =>
      have hxB : alFind B x = none := by
        rw [alFind_eq_none_iff] at hf ⊢
        rw [hkeys]
        exact hf
      simp [lamOf, hf, hxB]

lemma thirdPass_go :
    ∀ (items : AList Entry) (objs : AList Nuclide) (lst : List String)
      (objsF : AList Nuclide) (orderF : List String),
      (keysOf items).Nodup →
      items.foldlM (fun (acc : AList Nuclide × List String) kv =>
          (match alFind acc.1 kv.1 with
          | none => Except.error ("KeyError: " ++ kv.1)
          | some _ => do
              let o1 ← kv.2.parents.foldlM (fun o p => addParentK o kv.1 p) acc.1
              let o2 ← (kv.2.daughters.zip kv.2.decays).foldlM
                  (fun o dd => addDaughterEdge o kv.1 dd) o1
              Except.ok (o2, acc.2 ++ [kv.1]) :
            Except String (AList Nuclide × List String)))
        (objs, lst) = .ok (objsF, orderF) →
      orderF = lst ++ keysOf items ∧
      keysOf objsF = keysOf objs ∧
      (∀ x, lamOf objsF x = lamOf objs x) ∧
      (∀ k o, alFind objs k = some o → ∃ o', alFind objsF k = some o' ∧
        o'.lamda = o.lamda ∧
        o'.parents = o.parents ++ (((alFind items k).map Entry.parents).getD []) ∧
        o'.daughters = o.daughters ++
          (((alFind items k).map
            (fun e => (e.daughters.zip e.decays).map Prod.fst)).getD []) ∧
        o'.sources = o.sources ++ passSources objs items k) := by
  intro items
  induction items with
  | nil =>
      intro objs lst objsF orderF _ h
      simp only [List.foldlM_nil] at h
      have h2 : objs = objsF ∧ lst = orderF := by
        simpa [pure, Except.pure] using h
      obtain ⟨rfl, rfl⟩ := h2
      refine ⟨by simp [keysOf], rfl, fun x => rfl, ?_⟩
      intro k o ho
      exact ⟨o, ho, rfl, by simp [alFind], by simp [alFind], by simp [passSources]⟩
  | cons kv rest ih =>
      intro objs lst objsF orderF hnd h
      obtain ⟨a, ea⟩ := kv
      have hndr : (keysOf rest).Nodup := (List.nodup_cons.1 (by simpa [keysOf] using hnd)).2
      have hanr : a ∉ keysOf rest := (List.nodup_cons.1 (by simpa [keysOf] using hnd)).1
      rw [List.foldlM_cons] at h
      cases hfa : alFind objs a with
      | none =>
          simp only [hfa] at h
          simp [Bind.bind, Except.bind] at h
      | some oa =>
          simp only [hfa] at h
          cases hp1 : ea.parents.foldlM (fun o p => addParentK o a p) objs with
          | error e =>
              simp only [hp1, exceptBind_error] at h
              simp [Bind.bind, Except.bind] at h
          | ok o1 =>
              simp only [hp1, exceptBind_ok] at h
              cases hp2 : (ea.daughters.zip ea.decays).foldlM
                  (fun o dd => addDaughterEdge o a dd) o1 with
              | error e =>
                  simp only [hp2, exceptBind_error] at h
                  simp [Bind.bind, Except.bind] at h
              | ok o2 =>
                  simp only [hp2, exceptBind_ok] at h
                  obtain ⟨hkeys1, hchar1⟩ := foldlM_addParentK a ea.parents objs o1 hp1
                  obtain ⟨hkeys2, hchar2⟩ := foldlM_addDaughterEdge a
                    (ea.daughters.zip ea.decays) o1 o2 hp2
                  have hlam1 : ∀ x, lamOf o1 x = lamOf objs x := by
                    refine lamOf_eq_of_char hkeys1 ?_
                    intro k o ho
                    obtain ⟨o', ho', hval⟩ := hchar1 k o ho
                    refine ⟨o', ho', ?_⟩
                    rw [hval]
                    split <;> rfl
                  have hlam2 : ∀ x, lamOf o2 x = lamOf o1 x := by
                    refine lamOf_eq_of_char hkeys2 ?_
                    intro k o ho
                    obtain ⟨o', ho', _, hl, _, _⟩ := hchar2 k o ho
                    exact ⟨o', ho', hl⟩
                  obtain ⟨horder, hkeys3, hlam3, hchar3⟩ :=
                    ih o2 (lst ++ [a]) objsF orderF hndr h
                  refine ⟨?_, ?_, ?_, ?_⟩
                  · rw [horder]
                    simp [keysOf]
                  · rw [hkeys3, hkeys2, hkeys1]
                  · intro x
                    rw [hlam3 x, hlam2 x, hlam1 x]
                  · intro k o ho
                    obtain ⟨oA, hoA, hvalA⟩ := hchar1 k o ho
                    obtain ⟨oB, hoB, hBp, hBl, hBd, hBs⟩ := hchar2 k oA hoA
                    obtain ⟨o', ho', h'l, h'p, h'd, h's⟩ := hchar3 k oB hoB
                    have hpass : passSources o2 rest k = passSources objs rest k :=
                      passSources_congr k rest (fun x => by rw [hlam2 x, hlam1 x])
                    by_cases hka : k = a
                    · subst hka
                      have hrnone : alFind rest k = none :=
                        (alFind_eq_none_iff rest k).2 hanr
                      have hoaeq : o = oa := by
                        rw [ho] at hfa
                        exact Option.some.inj hfa
                      refine ⟨o', ho', ?_, ?_, ?_, ?_⟩
                      · rw [h'l, hBl, hvalA]
                        split <;> rfl
                      · rw [h'p, hBp, hvalA, hrnone]
                        simp [alFind]
                      · rw [h'd, hrnone, hBd, hvalA]
                        simp [alFind]
                      · rw [h's, hpass, hBs, hvalA]
                        simp only [if_pos rfl]
                        rw [passSources_cons]
                        simp only [edgesFromInto, hlam1 k, List.append_assoc]
                        simp
                    · have hrfind : alFind ((a, ea) :: rest) k = alFind rest k := by
                        simp [alFind, Ne.symm hka]
                      have hvalA' : oA = o := by
                        rw [hvalA, if_neg hka]
                      refine ⟨o', ho', ?_, ?_, ?_, ?_⟩
                      · rw [h'l, hBl, hvalA']
                      · rw [h'p, hBp, hvalA', hrfind]
                      · rw [h'd, hBd, hvalA', hrfind]
                        simp [hka]
                      · rw [h's, hpass, hBs, hvalA', passSources_cons]
                        simp only [edgesFromInto, hlam1 a, List.append_assoc]

lemma thirdPass_spec {objs : AList Nuclide} {dict : AList Entry}
    {objsF : AList Nuclide} {order : List String}
    (hnd : (keysOf dict).Nodup)
    (h : thirdPass objs dict = .ok (objsF, order)) :
    order = keysOf dict ∧
    keysOf objsF = keysOf objs ∧
    (∀ x, lamOf objsF x = lamOf objs x) ∧
    (∀ k o, alFind objs k = some o → ∃ o', alFind objsF k = some o' ∧
      o'.lamda = o.lamda ∧
      o'.parents = o.parents ++ (((alFind dict k).map Entry.parents).getD []) ∧
      o'.daughters = o.daughters ++
        (((alFind dict k).map
          (fun e => (e.daughters.zip e.decays).map Prod.fst)).getD []) ∧
      o'.sources = o.sources ++ passSources objs dict k) := by
  obtain ⟨ho, hk, hl, hc⟩ := thirdPass_go dict objs [] objsF order hnd h
  exact ⟨by simpa using ho, hk, hl, hc⟩

/-! ## The full build: characterization of a terminating run -/

lemma mkNuclideFromData_parents (ds : String → NucData) (src : AList ℚ)
    (k : String) : (mkNuclideFromData ds src k).parents = [] := rfl

lemma mkNuclideFromData_daughters (ds : String → NucData) (src : AList ℚ)
    (k : String) : (mkNuclideFromData ds src k).daughters = [] := rfl

lemma mkNuclideFromData_sources (ds : String → NucData) (src : AList ℚ)
    (k : String) : (mkNuclideFromData ds src k).sources = [] := rfl

lemma edgesInto_cons (ds : String → NucData) (src : AList ℚ) (a : String)
    (keys : List String) (k : String) :
    edgesInto ds src (a :: keys) k =
      ((dedupList (get_daughters (ds a).decays)).zip (ds a).decays).filterMap
        (fun dd =>
          if dd.1 = k then
            some (mkEdge a k ((mkNuclideFromData ds src a).lamda) dd.2)
          else none) ++ edgesInto ds src keys k := by
  simp [edgesInto]

lemma passSources_eq_edgesInto (ds : String → NucData) (src : AList ℚ)
    (objs0 : AList Nuclide) (k : String) :
    ∀ (dict2 : AList Entry),
      (keysOf dict2).Nodup →
      (∀ a e, alFind dict2 a = some e →
        e.daughters = dedupList (get_daughters (ds a).decays) ∧
        e.decays = (ds a).decays) →
      (∀ a, a ∈ keysOf dict2 →
        lamOf objs0 a = (mkNuclideFromData ds src a).lamda) →
      passSources objs0 dict2 k = edgesInto ds src (keysOf dict2) k := by
  intro dict2
  induction dict2 with
  | nil => intro _ _ _; rfl
  | cons kv rest ih =>
      intro hnd hent hlam
      obtain ⟨a, e⟩ := kv
      have h1 : alFind ((a, e) :: rest) a = some e := by simp [alFind]
      obtain ⟨hd, hdec⟩ := hent a e h1
      have hkeq : keysOf ((a, e) :: rest) = a :: keysOf rest := rfl
      have hanr : a ∉ keysOf rest :=
        (List.nodup_cons.1 (by simpa [keysOf] using hnd)).1
      have hndr : (keysOf rest).Nodup :=
        (List.nodup_cons.1 (by simpa [keysOf] using hnd)).2
      rw [passSources_cons, hkeq, edgesInto_cons]
      congr 1
      · simp [edgesFromInto, hd, hdec, hlam a (by simp [keysOf])]
      · refine ih hndr ?_ ?_
        · intro a' e' hf'
          by_cases ha' : a = a'
          · subst ha'
            have : a ∈ keysOf rest := by
              rw [← alFind_isSome_iff, hf']
              rfl
            exact absurd this hanr
          · refine hent a' e' ?_
            simp [alFind, ha', hf']
        · intro a' ha'
          refine hlam a' ?_
          show a' ∈ a :: keysOf rest
          exact List.mem_cons_of_mem a ha'

lemma get_nuclides_chain_spec {ds : String → NucData} {src : AList ℚ}
    {fuel : Nat} {chain : AList Nuclide}
    (h : get_nuclides ds src fuel = some (.ok chain)) :
    ∃ keys : List String, keys.Nodup ∧ chain.map Prod.fst = keys ∧
      ∀ p ∈ chain,
        p.2.daughters = dedupList (get_daughters (ds p.1).decays) ∧
        (∀ x, x ∈ p.2.parents ↔
          (x ∈ keys ∧ p.1 ∈ dedupList (get_daughters (ds x).decays))) ∧
        p.2.sources = edgesInto ds src keys p.1 := by
  unfold get_nuclides at h
  cases hdl : discoverLoop ds src fuel (keysOf src).reverse [] [] with
  | none =>
      rw [hdl] at h
      simp at h
  | some od =>
      obtain ⟨objs0, dictF⟩ := od
      rw [hdl] at h
      have hinv := discoverLoop_inv fuel ((keysOf src).reverse) [] []
        (BuildInv_init ds src _) objs0 dictF hdl
      have hnd := hinv.nodup
      have hcl : ∀ k e, alFind dictF k = some e →
          ∀ dg ∈ e.daughters, dg ∈ keysOf dictF := by
        intro k e he dg hdg
        have hkmem : k ∈ keysOf dictF := by
          rw [← alFind_isSome_iff, he]
          rfl
        have hent := hinv.entries k hkmem
        rw [he] at hent
        have hee : e = finalEntry (ds k).decays := Option.some.inj hent
        rw [hee] at hdg
        rcases hinv.closed k hkmem dg hdg with hc | hc
        · exact hc
        · cases hc
      obtain ⟨dict2, hfp, hkeys2, hchar2⟩ := fillParents_spec hnd hcl
      dsimp only [] at h
      rw [hfp] at h
      simp only [exceptBind_ok] at h
      cases htp : thirdPass objs0 dict2 with
      | error e =>
          rw [htp] at h
          simp [Bind.bind, Except.bind] at h
      | ok r =>
          obtain ⟨objsF, order⟩ := r
          rw [htp] at h
          simp only [exceptBind_ok, Option.some.injEq, Except.ok.injEq] at h
          obtain ⟨horder, hkeysF, hlamF, hcharF⟩ :=
            thirdPass_spec (by rw [hkeys2]; exact hnd) htp
          refine ⟨keysOf dictF, hnd, ?_, ?_⟩
          · rw [← h, horder, hkeys2, List.map_map]
            have hid :
                (Prod.fst ∘ fun k : String => (k, (alFind objsF k).getD default)) = id := rfl
            rw [hid, List.map_id]
          · intro p hp
            rw [← h] at hp
            obtain ⟨k, hk, hpk⟩ := List.mem_map.1 hp
            have hkmem : k ∈ keysOf dictF := by
              rw [← hkeys2, ← horder]
              exact hk
            have hobj0 : alFind objs0 k = some (mkNuclideFromData ds src k) :=
              hinv.objsVals k (by rw [hinv.keys_eq]; exact hkmem)
            obtain ⟨o', ho', hl', hpar', hdtr', hsrc'⟩ := hcharF k _ hobj0
            have hp2 : p = (k, o') := by
              rw [← hpk, ho']
              rfl
            have hentF : alFind dictF k = some (finalEntry (ds k).decays) :=
              hinv.entries k hkmem
            obtain ⟨e', he', hed, hedec, hepar⟩ := hchar2 k _ hentF
            have hedF : e'.daughters = dedupList (get_daughters (ds k).decays) := hed
            have hedecF : e'.decays = (ds k).decays := hedec
            rw [hp2]
            refine ⟨?_, ?_, ?_⟩
            · show o'.daughters = _
              rw [hdtr', he', mkNuclideFromData_daughters]
              simp only [Option.map_some', Option.getD_some, List.nil_append]
              rw [hedF, hedecF]
              refine zip_fst_of_le _ _ ?_
              calc (dedupList (get_daughters (ds k).decays)).length
                  ≤ (get_daughters (ds k).decays).length := length_dedupList _
                _ = (ds k).decays.length := by simp [get_daughters]
            · intro x
              show x ∈ o'.parents ↔ _
              rw [hpar', he', mkNuclideFromData_parents]
              simp only [Option.map_some', Option.getD_some, List.nil_append]
              rw [hepar x]
              constructor
              · rintro (hx | ⟨ex, hex, hkex⟩)
                · simp [finalEntry] at hx
                · have hxmem : x ∈ keysOf dictF := by
                    rw [← alFind_isSome_iff, hex]
                    rfl
                  have hentx := hinv.entries x hxmem
                  rw [hex] at hentx
                  have := Option.some.inj hentx
                  rw [this] at hkex
                  exact ⟨hxmem, hkex⟩
              · rintro ⟨hxmem, hkdtr⟩
                refine Or.inr ⟨finalEntry (ds x).decays, hinv.entries x hxmem, hkdtr⟩
            · show o'.sources = _
              rw [hsrc', mkNuclideFromData_sources, List.nil_append, ← hkeys2]
              refine passSources_eq_edgesInto ds src objs0 k dict2
                (by rw [hkeys2]; exact hnd) ?_ ?_
              · intro a e hae
                have hamem : a ∈ keysOf dictF := by
                  rw [← hkeys2, ← alFind_isSome_iff, hae]
                  rfl
                obtain ⟨ea', hea', heda, hedeca, _⟩ := hchar2 a _ (hinv.entries a hamem)
                rw [hae] at hea'
                have : e = ea' := Option.some.inj hea'
                rw [this, heda, hedeca]
                exact ⟨rfl, rfl⟩
              · intro a hamem
                have hobja : alFind objs0 a = some (mkNuclideFromData ds src a) :=
                  hinv.objsVals a (by rw [hinv.keys_eq, ← hkeys2]; exact hamem)
                simp [lamOf, hobja]

lemma block_filter_eq_nil {a b kq : String} {lam : ℚ}
    (l : List (String × DecayRec)) (hne : b ≠ a) :
    ((l.filterMap (fun dd =>
        if dd.1 = kq then some (mkEdge b kq lam dd.2) else none)).filter
      (fun e => e.parent == a)) = [] := by
  induction l with
  | nil => rfl
  | cons dd rest ih =>
      by_cases h : dd.1 = kq
      · rw [@List.filterMap_cons_some _ _
              (fun dd : String × DecayRec =>
                if dd.1 = kq then some (mkEdge b kq lam dd.2) else none)
              dd rest (mkEdge b kq lam dd.2) (by simp [h]),
            List.filter_cons_of_neg (by simp [mkEdge, hne]), ih]
      · rw [List.filterMap_cons_none (by simp [h]), ih]

lemma block_filter_eq_self {b kq : String} {lam : ℚ}
    (l : List (String × DecayRec)) :
    ((l.filterMap (fun dd =>
        if dd.1 = kq then some (mkEdge b kq lam dd.2) else none)).filter
      (fun e => e.parent == b)) =
    l.filterMap (fun dd =>
        if dd.1 = kq then some (mkEdge b kq lam dd.2) else none) := by
  induction l with
  | nil => rfl
  | cons dd rest ih =>
      by_cases h : dd.1 = kq
      · rw [@List.filterMap_cons_some _ _
              (fun dd : String × DecayRec =>
                if dd.1 = kq then some (mkEdge b kq lam dd.2) else none)
              dd rest (mkEdge b kq lam dd.2) (by simp [h]),
            List.filter_cons_of_pos (by simp [mkEdge]), ih]
      · rw [List.filterMap_cons_none (by simp [h]), ih]

/-! ## The order-parametrized third pass: characterization -/

lemma edgesFromIntoOrd_congr (dord : String → List String)
    {A B : AList Nuclide} (a : String) (e : Entry) (k : String)
    (h : lamOf A a = lamOf B a) :
    edgesFromIntoOrd dord A a e k = edgesFromIntoOrd dord B a e k := by
  simp [edgesFromIntoOrd, h]

lemma passSourcesOrd_cons (dord : String → List String) (A : AList Nuclide)
    (kv : String × Entry) (rest : AList Entry) (k : String) :
    passSourcesOrd dord A (kv :: rest) k =
      edgesFromIntoOrd dord A kv.1 kv.2 k ++ passSourcesOrd dord A rest k := by
  simp [passSourcesOrd]

lemma passSourcesOrd_congr (dord : String → List String)
    {A B : AList Nuclide} (k : String) :
    ∀ (items : AList Entry), (∀ x, lamOf A x = lamOf B x) →
      passSourcesOrd dord A items k = passSourcesOrd dord B items k := by
  intro items h
  induction items with
  | nil => rfl
  | cons kv rest ih =>
      rw [passSourcesOrd_cons, passSourcesOrd_cons, ih,
        edgesFromIntoOrd_congr dord kv.1 kv.2 k (h kv.1)]

lemma thirdPassOrd_go (pord dord : String → List String) :
    ∀ (items : AList Entry) (objs : AList Nuclide) (lst : List String)
      (objsF : AList Nuclide) (orderF : List String),
      (keysOf items).Nodup →
      items.foldlM (fun (acc : AList Nuclide × List String) kv =>
          (match alFind acc.1 kv.1 with
          | none => Except.error ("KeyError: " ++ kv.1)
          | some _ => do
              let o1 ← (pord kv.1).foldlM (fun o p => addParentK o kv.1 p) acc.1
              let o2 ← ((dord kv.1).zip kv.2.decays).foldlM
                  (fun o dd => addDaughterEdge o kv.1 dd) o1
              Except.ok (o2, acc.2 ++ [kv.1]) :
            Except String (AList Nuclide × List String)))
        (objs, lst) = .ok (objsF, orderF) →
      orderF = lst ++ keysOf items ∧
      keysOf objsF = keysOf objs ∧
      (∀ x, lamOf objsF x = lamOf objs x) ∧
      (∀ k o, alFind objs k = some o → ∃ o', alFind objsF k = some o' ∧
        o'.lamda = o.lamda ∧
        o'.sources = o.sources ++ passSourcesOrd dord objs items k) := by
  intro items
  induction items with
  | nil =>
      intro objs lst objsF orderF _ h
      simp only [List.foldlM_nil] at h
      have h2 : objs = objsF ∧ lst = orderF := by
        simpa [pure, Except.pure] using h
      obtain ⟨rfl, rfl⟩ := h2
      refine ⟨by simp [keysOf], rfl, fun x => rfl, ?_⟩
      intro k o ho
      exact ⟨o, ho, rfl, by simp [passSourcesOrd]⟩
  | cons kv rest ih =>
      intro objs lst objsF orderF hnd h
      obtain ⟨a, ea⟩ := kv
      have hndr : (keysOf rest).Nodup :=
        (List.nodup_cons.1 (by simpa [keysOf] using hnd)).2
      rw [List.foldlM_cons] at h
      cases hfa : alFind objs a with
      | none =>
          simp only [hfa] at h
          simp [Bind.bind, Except.bind] at h
      | some oa =>
          simp only [hfa] at h
          cases hp1 : (pord a).foldlM (fun o p => addParentK o a p) objs with
          | error e =>
              simp only [hp1, exceptBind_error] at h
              simp [Bind.bind, Except.bind] at h
          | ok o1 =>
              simp only [hp1, exceptBind_ok] at h
              cases hp2 : ((dord a).zip ea.decays).foldlM
                  (fun o dd => addDaughterEdge o a dd) o1 with
              | error e =>
                  simp only [hp2, exceptBind_error] at h
                  simp [Bind.bind, Except.bind] at h
              | ok o2 =>
                  simp only [hp2, exceptBind_ok] at h
                  obtain ⟨hkeys1, hchar1⟩ := foldlM_addParentK a (pord a) objs o1 hp1
                  obtain ⟨hkeys2, hchar2⟩ := foldlM_addDaughterEdge a
                    ((dord a).zip ea.decays) o1 o2 hp2
                  have hlam1 : ∀ x, lamOf o1 x = lamOf objs x := by
                    refine lamOf_eq_of_char hkeys1 ?_
                    intro k o ho
                    obtain ⟨o', ho', hval⟩ := hchar1 k o ho
                    refine ⟨o', ho', ?_⟩
                    rw [hval]
                    split <;> rfl
                  have hlam2 : ∀ x, lamOf o2 x = lamOf o1 x := by
                    refine lamOf_eq_of_char hkeys2 ?_
                    intro k o ho
                    obtain ⟨o', ho', _, hl, _, _⟩ := hchar2 k o ho
                    exact ⟨o', ho', hl⟩
                  obtain ⟨horder, hkeys3, hlam3, hchar3⟩ :=
                    ih o2 (lst ++ [a]) objsF orderF hndr h
                  refine ⟨?_, ?_, ?_, ?_⟩
                  · rw [horder]
                    simp [keysOf]
                  · rw [hkeys3, hkeys2, hkeys1]
                  · intro x
                    rw [hlam3 x, hlam2 x, hlam1 x]
                  · intro k o ho
                    obtain ⟨oA, hoA, hvalA⟩ := hchar1 k o ho
                    obtain ⟨oB, hoB, hBp, hBl, hBd, hBs⟩ := hchar2 k oA hoA
                    obtain ⟨o', ho', h'l, h's⟩ := hchar3 k oB hoB
                    have hpass : passSourcesOrd dord o2 rest k =
                        passSourcesOrd dord objs rest k :=
                      passSourcesOrd_congr dord k rest
                        (fun x => by rw [hlam2 x, hlam1 x])
                    by_cases hka : k = a
                    · subst hka
                      refine ⟨o', ho', ?_, ?_⟩
                      · rw [h'l, hBl, hvalA]
                        split <;> rfl
                      · rw [h's, hpass, hBs, hvalA]
                        simp only [if_pos rfl]
                        rw [passSourcesOrd_cons]
                        simp only [edgesFromIntoOrd, hlam1 k, List.append_assoc]
                        simp
                    · have hvalA' : oA = o := by
                        rw [hvalA, if_neg hka]
                      refine ⟨o', ho', ?_, ?_⟩
                      · rw [h'l, hBl, hvalA']
                      · rw [h's, hpass, hBs, hvalA', passSourcesOrd_cons]
                        simp only [edgesFromIntoOrd, hlam1 a, List.append_assoc]

lemma thirdPassOrd_spec {pord dord : String → List String}
    {objs : AList Nuclide} {dict : AList Entry}
    {objsF : AList Nuclide} {order : List String}
    (hnd : (keysOf dict).Nodup)
    (h : thirdPassOrd pord dord objs dict = .ok (objsF, order)) :
    order = keysOf dict ∧
    keysOf objsF = keysOf objs ∧
    (∀ x, lamOf objsF x = lamOf objs x) ∧
    (∀ k o, alFind objs k = some o → ∃ o', alFind objsF k = some o' ∧
      o'.lamda = o.lamda ∧
      o'.sources = o.sources ++ passSourcesOrd dord objs dict k) := by
  obtain ⟨ho, hk, hl, hc⟩ := thirdPassOrd_go pord dord dict objs [] objsF order hnd h
  exact ⟨by simpa using ho, hk, hl, hc⟩

lemma edgesIntoOrd_cons (dord : String → List String) (ds : String → NucData)
    (src : AList ℚ) (a : String) (keys : List String) (k : String) :
    edgesIntoOrd dord ds src (a :: keys) k =
      ((dord a).zip (ds a).decays).filterMap
        (fun dd =>
          if dd.1 = k then
            some (mkEdge a k ((mkNuclideFromData ds src a).lamda) dd.2)
          else none) ++ edgesIntoOrd dord ds src keys k := by
  simp [edgesIntoOrd]

lemma passSourcesOrd_eq_edgesIntoOrd (dord : String → List String)
    (ds : String → NucData) (src : AList ℚ) (objs0 : AList Nuclide)
    (k : String) :
    ∀ (dict2 : AList Entry),
      (keysOf dict2).Nodup →
      (∀ a e, alFind dict2 a = some e → e.decays = (ds a).decays) →
      (∀ a, a ∈ keysOf dict2 →
        lamOf objs0 a = (mkNuclideFromData ds src a).lamda) →
      passSourcesOrd dord objs0 dict2 k =
        edgesIntoOrd dord ds src (keysOf dict2) k := by
  intro dict2
  induction dict2 with
  | nil => intro _ _ _; rfl
  | cons kv rest ih =>
      intro hnd hent hlam
      obtain ⟨a, e⟩ := kv
      have h1 : alFind ((a, e) :: rest) a = some e := by simp [alFind]
      have hdec := hent a e h1
      have hkeq : keysOf ((a, e) :: rest) = a :: keysOf rest := rfl
      have hanr : a ∉ keysOf rest :=
        (List.nodup_cons.1 (by simpa [keysOf] using hnd)).1
      have hndr : (keysOf rest).Nodup :=
        (List.nodup_cons.1 (by simpa [keysOf] using hnd)).2
      rw [passSourcesOrd_cons, hkeq, edgesIntoOrd_cons]
      congr 1
      · simp [edgesFromIntoOrd, hdec, hlam a (by simp [keysOf])]
      · refine ih hndr ?_ ?_
        · intro a' e' hf'
          by_cases ha' : a = a'
          · subst ha'
            have : a ∈ keysOf rest := by
              rw [← alFind_isSome_iff, hf']
              rfl
            exact absurd this hanr
          · refine hent a' e' ?_
            simp [alFind, ha', hf']
        · intro a' ha'
          refine hlam a' ?_
          show a' ∈ a :: keysOf rest
          exact List.mem_cons_of_mem a ha'

lemma get_nuclidesOrd_chain_spec {pord dord : String → List String}
    {ds : String → NucData} {src : AList ℚ}
    {fuel : Nat} {chain : AList Nuclide}
    (h : get_nuclidesOrd pord dord ds src fuel = some (.ok chain)) :
    ∃ keys : List String, keys.Nodup ∧ chain.map Prod.fst = keys ∧
      ∀ p ∈ chain, p.2.sources = edgesIntoOrd dord ds src keys p.1 := by
  unfold get_nuclidesOrd at h
  cases hdl : discoverLoop ds src fuel (keysOf src).reverse [] [] with
  | none =>
      rw [hdl] at h
      simp at h
  | some od =>
      obtain ⟨objs0, dictF⟩ := od
      rw [hdl] at h
      have hinv := discoverLoop_inv fuel ((keysOf src).reverse) [] []
        (BuildInv_init ds src _) objs0 dictF hdl
      have hnd := hinv.nodup
      have hcl : ∀ k e, alFind dictF k = some e →
          ∀ dg ∈ e.daughters, dg ∈ keysOf dictF := by
        intro k e he dg hdg
        have hkmem : k ∈ keysOf dictF := by
          rw [← alFind_isSome_iff, he]
          rfl
        have hent := hinv.entries k hkmem
        rw [he] at hent
        have hee : e = finalEntry (ds k).decays := Option.some.inj hent
        rw [hee] at hdg
        rcases hinv.closed k hkmem dg hdg with hc | hc
        · exact hc
        · cases hc
      obtain ⟨dict2, hfp, hkeys2, hchar2⟩ := fillParents_spec hnd hcl
      dsimp only [] at h
      rw [hfp] at h
      simp only [exceptBind_ok] at h
      cases htp : thirdPassOrd pord dord objs0 dict2 with
      | error e =>
          rw [htp] at h
          simp [Bind.bind, Except.bind] at h
      | ok r =>
          obtain ⟨objsF, order⟩ := r
          rw [htp] at h
          simp only [exceptBind_ok, Option.some.injEq, Except.ok.injEq] at h
          obtain ⟨horder, hkeysF, hlamF, hcharF⟩ :=
            thirdPassOrd_spec (by rw [hkeys2]; exact hnd) htp
          refine ⟨keysOf dictF, hnd, ?_, ?_⟩
          · rw [← h, horder, hkeys2, List.map_map]
            have hid :
                (Prod.fst ∘ fun k : String => (k, (alFind objsF k).getD default)) = id := rfl
            rw [hid, List.map_id]
          · intro p hp
            rw [← h] at hp
            obtain ⟨k, hk, hpk⟩ := List.mem_map.1 hp
            have hkmem : k ∈ keysOf dictF := by
              rw [← hkeys2, ← horder]
              exact hk
            have hobj0 : alFind objs0 k = some (mkNuclideFromData ds src k) :=
              hinv.objsVals k (by rw [hinv.keys_eq]; exact hkmem)
            obtain ⟨o', ho', hl', hsrc'⟩ := hcharF k _ hobj0
            have hp2 : p = (k, o') := by
              rw [← hpk, ho']
              rfl
            rw [hp2]
            show o'.sources = _
            rw [hsrc', mkNuclideFromData_sources, List.nil_append, ← hkeys2]
            refine passSourcesOrd_eq_edgesIntoOrd dord ds src objs0 k dict2
              (by rw [hkeys2]; exact hnd) ?_ ?_
            · intro a e hae
              have hamem : a ∈ keysOf dictF := by
                rw [← hkeys2, ← alFind_isSome_iff, hae]
                rfl
              obtain ⟨ea', hea', _, hedeca, _⟩ := hchar2 a _ (hinv.entries a hamem)
              rw [hae] at hea'
              have : e = ea' := Option.some.inj hea'
              rw [this, hedeca]
              rfl
            · intro a hamem
              have hobja : alFind objs0 a = some (mkNuclideFromData ds src a) :=
                hinv.objsVals a (by rw [hinv.keys_eq, ← hkeys2]; exact hamem)
              simp [lamOf, hobja]

lemma edgesIntoOrd_filter_not_mem (dord : String → List String)
    (ds : String → NucData) (src : AList ℚ) (kq a : String) :
    ∀ keys : List String, a ∉ keys →
      (edgesIntoOrd dord ds src keys kq).filter (fun e => e.parent == a) = [] := by
  intro keys
  induction keys with
  | nil => intro _; rfl
  | cons b rest ih =>
      intro ha
      have hba : b ≠ a := by
        rintro rfl
        exact ha (List.mem_cons_self b rest)
      rw [edgesIntoOrd_cons, List.filter_append,
          ih (fun hh => ha (List.mem_cons_of_mem _ hh)),
          block_filter_eq_nil _ hba]
      rfl

lemma edgesIntoOrd_filter_parent (dord : String → List String)
    (ds : String → NucData) (src : AList ℚ) (kq : String) :
    ∀ keys : List String, keys.Nodup → ∀ a ∈ keys,
      (edgesIntoOrd dord ds src keys kq).filter (fun e => e.parent == a) =
        ((dord a).zip (ds a).decays).filterMap
          (fun dd =>
            if dd.1 = kq then
              some (mkEdge a kq ((mkNuclideFromData ds src a).lamda) dd.2)
            else none) := by
  intro keys
  induction keys with
  | nil =>
      intro _ a ha
      cases ha
  | cons b rest ih =>
      intro hnd a ha
      obtain ⟨hbn, hndr⟩ := List.nodup_cons.1 hnd
      rw [edgesIntoOrd_cons, List.filter_append]
      rcases List.mem_cons.1 ha with rfl | har
      · rw [block_filter_eq_self,
            edgesIntoOrd_filter_not_mem dord ds src kq a rest hbn,
            List.append_nil]
      · have hba : b ≠ a := by
          rintro rfl
          exact hbn har
        rw [block_filter_eq_nil _ hba, List.nil_append, ih hndr a har]

lemma zip_filterMap_nil_of_not_mem (a kq : String) (lam : ℚ)
    (dord : List String) (decs : List DecayRec) (h : kq ∉ dord) :
    (dord.zip decs).filterMap
      (fun dd => if dd.1 = kq then some (mkEdge a kq lam dd.2) else none) = [] := by
  rw [List.filterMap_eq_nil_iff]
  intro dd hdd
  have h1 := (List.of_mem_zip hdd).1
  have hne : dd.1 ≠ kq := fun hh => h (hh ▸ h1)
  simp [hne]

lemma zip_filterMap_single_of_nodup (a kq : String) (lam : ℚ) :
    ∀ (dord : List String) (decs : List DecayRec), dord.Nodup →
      dord.length ≤ decs.length → kq ∈ dord →
      ∃ dec ∈ decs.take dord.length,
        (dord.zip decs).filterMap
            (fun dd => if dd.1 = kq then some (mkEdge a kq lam dd.2) else none) =
          [mkEdge a kq lam dec] := by
  intro dord
  induction dord with
  | nil =>
      intro decs _ _ hk
      cases hk
  | cons d0 drest ih =>
      intro decs hnd hlen hk
      cases decs with
      | nil => simp at hlen
      | cons c0 crest =>
          obtain ⟨hd0, hndr⟩ := List.nodup_cons.1 hnd
          rw [List.zip_cons_cons]
          by_cases hdk : d0 = kq
          · have hnr : kq ∉ drest := by
              rw [← hdk]
              exact hd0
            refine ⟨c0, ?_, ?_⟩
            · rw [List.length_cons, List.take_succ_cons]
              exact List.mem_cons_self c0 _
            · rw [@List.filterMap_cons_some _ _
                    (fun dd : String × DecayRec =>
                      if dd.1 = kq then some (mkEdge a kq lam dd.2) else none)
                    (d0, c0) (drest.zip crest)
                    (mkEdge a kq lam c0) (by simp [hdk]),
                  zip_filterMap_nil_of_not_mem a kq lam drest crest hnr]
          · have hkr : kq ∈ drest := by
              rcases List.mem_cons.1 hk with hh | hh
              · exact absurd hh.symm hdk
              · exact hh
            obtain ⟨dec, hdecm, heq⟩ := ih crest hndr (by simpa using hlen) hkr
            refine ⟨dec, ?_, ?_⟩
            · rw [List.length_cons, List.take_succ_cons]
              exact List.mem_cons_of_mem c0 hdecm
            · rw [List.filterMap_cons_none (by simp [hdk]), heq]

/-! ## Lemmas about one Euler step -/

lemma eulerStep_length (dt : ℚ) (c : AList Nuclide) :
    (eulerStep dt c).length = c.length := by
  simp [eulerStep, dsdt]

lemma stepN_length (dt : ℚ) (m : Nat) (c : AList Nuclide) :
    (stepN dt m c).length = c.length := by
  induction m generalizing c with
  | zero => rfl
  | succ m ih => simpa [stepN, eulerStep_length] using ih (eulerStep dt c)

lemma stepN_succ_out (dt : ℚ) (m : Nat) (c : AList Nuclide) :
    stepN dt (m + 1) c = eulerStep dt (stepN dt m c) := by
  induction m generalizing c with
  | zero => rfl
  | succ m ih =>
      show stepN dt (m + 1) (eulerStep dt c) = _
      rw [ih (eulerStep dt c)]
      rfl

lemma nthNuc_eulerStep (dt : ℚ) (c : AList Nuclide) (j : Nat)
    (hj : j < c.length) :
    nthNuc (eulerStep dt c) j =
      { nthNuc c j with
        n := (nthNuc c j).n +
          max (dt * (source_term c (nthNuc c j) - loss_term (nthNuc c j)))
            (-(nthNuc c j).n)
        n_arr := (nthNuc c j).n_arr ++
          [(nthNuc c j).n +
            max (dt * (source_term c (nthNuc c j) - loss_term (nthNuc c j)))
              (-(nthNuc c j).n)] } := by
  obtain ⟨p, hp⟩ : ∃ p, getElem? c j = some p := by
    cases h : getElem? c j with
    | none => exact absurd (List.getElem?_eq_none_iff.1 h) (Nat.not_le_of_lt hj)
    | some p => exact ⟨p, rfl⟩
  simp [nthNuc, eulerStep, mapGetQ, alGetQ, dsdt, hp]

lemma exists_of_mem_eulerStep {dt : ℚ} {c : AList Nuclide}
    {q : String × Nuclide} (hq : q ∈ eulerStep dt c) :
    ∃ p ∈ c, ∃ y : ℚ,
      q = (p.1, { p.2 with
                  n := p.2.n + max y (-p.2.n)
                  n_arr := p.2.n_arr ++ [p.2.n + max y (-p.2.n)] }) := by
  unfold eulerStep at hq
  obtain ⟨py, hmem, rfl⟩ := List.mem_map.1 hq
  exact ⟨py.1, (List.of_mem_zip hmem).1, py.2, rfl⟩

lemma NonnegAll_eulerStep {dt : ℚ} {c : AList Nuclide}
    (h : NonnegAll c) : NonnegAll (eulerStep dt c) := by
  intro q hq
  obtain ⟨p, hp, y, rfl⟩ := exists_of_mem_eulerStep hq
  have hbase : (0 : ℚ) ≤ p.2.n + max y (-p.2.n) := by
    have := le_max_right y (-p.2.n)
    linarith
  refine ⟨hbase, ?_⟩
  intro x hx
  rcases List.mem_append.1 hx with hx | hx
  · exact ((h p hp).2 x hx)
  · rcases List.mem_singleton.1 hx with rfl
    exact hbase

lemma NonnegAll_stepN {dt : ℚ} {c : AList Nuclide} (m : Nat)
    (h : NonnegAll c) : NonnegAll (stepN dt m c) := by
  induction m generalizing c with
  | zero => exact h
  | succ m ih => exact ih (NonnegAll_eulerStep h)

lemma solve_ok_shape {chain out : AList Nuclide} {tspan : List ℚ}
    (hrun : solve chain tspan = .ok out) :
    ∃ t0 t1 rest, tspan = t0 :: t1 :: rest ∧
      out = stepN (t1 - t0) (rest.length + 1) chain := by
  match tspan with
  | [] => exact absurd hrun (by simp [solve, eulerfw])
  | [t] => exact absurd hrun (by simp [solve, eulerfw])
  | t0 :: t1 :: rest =>
      refine ⟨t0, t1, rest, rfl, ?_⟩
      have := hrun
      simp only [solve, eulerfw, Except.ok.injEq] at this
      exact this.symm

lemma nthNuc_eulerStep_n (dt : ℚ) (c : AList Nuclide) (j : Nat)
    (hj : j < c.length) :
    (nthNuc (eulerStep dt c) j).n = (nthNuc c j).n +
      max (dt * (source_term c (nthNuc c j) - loss_term (nthNuc c j)))
        (-(nthNuc c j).n) := by
  rw [nthNuc_eulerStep dt c j hj]

lemma nthNuc_eulerStep_lamda (dt : ℚ) (c : AList Nuclide) (j : Nat)
    (hj : j < c.length) :
    (nthNuc (eulerStep dt c) j).lamda = (nthNuc c j).lamda := by
  rw [nthNuc_eulerStep dt c j hj]

lemma nthNuc_eulerStep_sources (dt : ℚ) (c : AList Nuclide) (j : Nat)
    (hj : j < c.length) :
    (nthNuc (eulerStep dt c) j).sources = (nthNuc c j).sources := by
  rw [nthNuc_eulerStep dt c j hj]

lemma nthNuc_eulerStep_n_arr (dt : ℚ) (c : AList Nuclide) (j : Nat)
    (hj : j < c.length) :
    (nthNuc (eulerStep dt c) j).n_arr =
      (nthNuc c j).n_arr ++ [(nthNuc (eulerStep dt c) j).n] := by
  rw [nthNuc_eulerStep dt c j hj]

lemma range_add_two (m : Nat) :
    List.range (m + 2) = 0 :: 1 :: (List.range m).map (fun i => i + 2) := by
  induction m with
  | zero => rfl
  | succ m ih =>
      have h2 : m + 1 + 2 = (m + 2) + 1 := by omega
      rw [h2, List.range_succ, ih, List.range_succ]
      simp

lemma syncStep_eulerStep (dt : ℚ) (c : AList Nuclide) :
    SyncStep dt c (eulerStep dt c) := by
  refine ⟨eulerStep_length dt c, ?_⟩
  intro j hj
  exact ⟨nthNuc_eulerStep_n dt c j hj, nthNuc_eulerStep_n_arr dt c j hj⟩

lemma nArr_length_stepN (dt : ℚ) (m : Nat) (c : AList Nuclide) (j : Nat)
    (hj : j < c.length) :
    (nthNuc (stepN dt m c) j).n_arr.length =
      (nthNuc c j).n_arr.length + m := by
  induction m with
  | zero => rfl
  | succ m ih =>
      have hj' : j < (stepN dt m c).length := by rw [stepN_length]; exact hj
      rw [stepN_succ_out, nthNuc_eulerStep_n_arr _ _ j hj']
      simp only [List.length_append, List.length_singleton, ih]
      omega

lemma stable_stepN (dt : ℚ) (m : Nat) (c : AList Nuclide) (j : Nat)
    (hj : j < c.length) (hl : (nthNuc c j).lamda = 0)
    (hs : (nthNuc c j).sources = []) (hn : 0 ≤ (nthNuc c j).n) :
    (nthNuc (stepN dt m c) j).n = (nthNuc c j).n ∧
    (nthNuc (stepN dt m c) j).lamda = 0 ∧
    (nthNuc (stepN dt m c) j).sources = [] ∧
    (nthNuc (stepN dt m c) j).n_arr =
      (nthNuc c j).n_arr ++ List.replicate m (nthNuc c j).n := by
  induction m with
  | zero => exact ⟨rfl, hl, hs, by rw [List.replicate_zero, List.append_nil]; rfl⟩
  | succ m ih =>
      have hj' : j < (stepN dt m c).length := by rw [stepN_length]; exact hj
      obtain ⟨ihn, ihl, ihs, iharr⟩ := ih
      have hzero : dt * (source_term (stepN dt m c) (nthNuc (stepN dt m c) j) -
          loss_term (nthNuc (stepN dt m c) j)) = 0 := by
        simp [source_term, loss_term, ihs, ihl]
      have hmax : max (dt * (source_term (stepN dt m c) (nthNuc (stepN dt m c) j) -
          loss_term (nthNuc (stepN dt m c) j))) (-(nthNuc (stepN dt m c) j).n) = 0 := by
        rw [hzero]
        exact max_eq_left (by rw [ihn]; linarith)
      have hval : (nthNuc (stepN dt (m + 1) c) j).n = (nthNuc c j).n := by
        rw [stepN_succ_out, nthNuc_eulerStep_n _ _ j hj', hmax, add_zero, ihn]
      refine ⟨hval, ?_, ?_, ?_⟩
      · rw [stepN_succ_out, nthNuc_eulerStep_lamda _ _ j hj']
        exact ihl
      · rw [stepN_succ_out, nthNuc_eulerStep_sources _ _ j hj']
        exact ihs
      · rw [stepN_succ_out, nthNuc_eulerStep_n_arr _ _ j hj', ← stepN_succ_out,
          hval, iharr, List.append_assoc, ← List.replicate_succ' m (nthNuc c j).n]

/-! ## Claim C2 -/

/-- **C2** (confirmed).  If every population is non-negative and every
history empty before the run, then after any successful `solve` run every
population and every recorded history value is non-negative: the update
`n += max(derivative * dt, -n)` can never drive a population below zero,
even when `decay_constant * dt > 1`. -/
theorem euler_population_nonneg (chain out : AList Nuclide) (tspan : List ℚ)
    (h0 : ∀ p ∈ chain, 0 ≤ p.2.n) (harr : ∀ p ∈ chain, p.2.n_arr = [])
    (hrun : solve chain tspan = .ok out) : NonnegAll out := by
  have hstart : NonnegAll chain := by
    intro p hp
    refine ⟨h0 p hp, ?_⟩
    intro x hx
    rw [harr p hp] at hx
    cases hx
  obtain ⟨t0, t1, rest, -, rfl⟩ := solve_ok_shape hrun
  exact NonnegAll_stepN _ hstart

/-- Witness for C2 at a concrete overshooting input: `lamda = 1`, `dt = 2`,
so a plain Euler step would make the population negative. -/
theorem euler_population_nonneg_witness : NonnegAll c2out :=
  euler_population_nonneg [("x2", xNuc)] c2out [0, 2, 4]
    (by with_unfolding_all decide) (by decide) (by with_unfolding_all rfl)

/-! ## Claim C3 -/

/-- **C3** (confirmed).  On a uniformly spaced grid of `k ≥ 2` points,
`solve` performs exactly `k - 1` synchronous explicit-Euler steps of size
`grid[1] - grid[0]`, each step evaluating every nuclide's derivative
`sum(lamda_eff * parent.n) - lamda * n` on the pre-step populations. -/
theorem solve_uniform_grid_sync_euler (chain : AList Nuclide)
    (tspan : List ℚ) (k : Nat) (t0 h : ℚ) (hk : 2 ≤ k)
    (ht : tspan = (List.range k).map (fun i : ℕ => t0 + (i : ℚ) * h)) :
    C3Prop chain tspan k h := by
  obtain ⟨m, rfl⟩ : ∃ m, k = m + 2 := ⟨k - 2, by omega⟩
  have hdt : (t0 + ((1 : ℕ) : ℚ) * h) - (t0 + ((0 : ℕ) : ℚ) * h) = h := by
    push_cast
    ring
  refine ⟨?_, ?_, ?_⟩
  · subst ht
    rw [range_add_two]
    simp only [List.map_cons, solve, eulerfw, List.length_map, List.length_range]
    rw [hdt]
    rfl
  · intro i
    rw [stepN_succ_out]
    exact syncStep_eulerStep h (stepN h i chain)
  · intro j hj
    exact nArr_length_stepN h (m + 2 - 1) chain j hj

/-- Witness for C3: a parent/daughter pair on the grid `[0, 2, 4]`. -/
theorem solve_uniform_grid_sync_euler_witness :
    C3Prop [("p2", pNuc), ("d2", dNuc)] [0, 2, 4] 3 2 :=
  solve_uniform_grid_sync_euler [("p2", pNuc), ("d2", dNuc)] [0, 2, 4] 3 0 2
    (by decide) (by with_unfolding_all decide)

/-! ## Claim C4 -/

/-- **C4** (counterexample).  The claim says a time grid with fewer than 2
points "returns normally rather than raising an error"; on the singleton
grid `[3]` the call instead raises an `IndexError` while computing
`dt = tspan[1] - tspan[0]` (`main.py` line 132). -/
theorem solve_short_grid_raises :
    solve [("x2", xNuc)] [3] = .error "IndexError: index 1 is out of bounds" :=
  rfl

/-- **C4** (amended).  For every grid with fewer than 2 points, `solve`
raises `IndexError` when computing `dt = tspan[1] - tspan[0]`; no stepping
is performed and no history is recorded, but the call does not return
normally. -/
theorem solve_short_grid_indexerror (chain : AList Nuclide) (tspan : List ℚ)
    (h : tspan.length < 2) :
    solve chain tspan = .error "IndexError: index 1 is out of bounds" := by
  match tspan with
  | [] => rfl
  | [t] => rfl
  | t0 :: t1 :: rest =>
      exfalso
      simp only [List.length_cons] at h
      omega

/-- Witness for the amended C4 at the empty grid. -/
theorem solve_short_grid_indexerror_witness :
    solve [("s2", sNuc)] [] = .error "IndexError: index 1 is out of bounds" :=
  solve_short_grid_indexerror [("s2", sNuc)] [] (by decide)

/-! ## Claim C6 -/

/-- **C6** (confirmed).  `Decay.__init__` succeeds exactly when the supplied
ratio lies in `[0, 1]`, storing it unclamped with
`lamda_eff = lamda * decay_ratio` (the caller passes the parent's decay
constant for `lamda`, `main.py` line 109), and raises `ValueError` exactly
when the ratio lies outside `[0, 1]`. -/
theorem mkDecay_validation (p d : String) (l r : ℚ) :
    (mkDecay p d l r = .ok { parent := p
                             daughter := d
                             lamda := l
                             decay_ratio := r
                             lamda_eff := l * r } ↔ (0 ≤ r ∧ r ≤ 1)) ∧
    (mkDecay p d l r = .error ("ValueError: decay_ratio must be between 0 and 1, now got "
        ++ toString r ++ ".") ↔ (r < 0 ∨ 1 < r)) := by
  by_cases h : 0 ≤ r ∧ r ≤ 1
  · have h' : ¬(r < 0 ∨ 1 < r) := by
      push_neg
      exact h
    constructor
    · simp [mkDecay, h]
    · simp [mkDecay, h]
  · have h' : r < 0 ∨ 1 < r := by
      rcases not_and_or.1 h with h1 | h2
      · exact Or.inl (not_le.1 h1)
      · exact Or.inr (not_le.1 h2)
    constructor
    · simp [mkDecay, h]
    · simpa [mkDecay, h] using h'

/-! ## Claim C8 -/

/-- **C8** (confirmed).  A `Nuclide` built with `halflife = None` has decay
constant 0, and a nuclide of the chain with decay constant 0, no incoming
decay edges, a non-negative population and an empty history keeps exactly
its initial population at every recorded step of a successful run. -/
theorem stable_nuclide_constant (chain out : AList Nuclide) (tspan : List ℚ)
    (j : Nat) (hj : j < chain.length) (hl : (nthNuc chain j).lamda = 0)
    (hs : (nthNuc chain j).sources = []) (hn : 0 ≤ (nthNuc chain j).n)
    (ha : (nthNuc chain j).n_arr = []) (hrun : solve chain tspan = .ok out) :
    StableLamdaZero ∧ ConstPopulation chain out j := by
  refine ⟨fun s z nn mass m0 => rfl, ?_⟩
  obtain ⟨t0, t1, rest, -, rfl⟩ := solve_ok_shape hrun
  obtain ⟨hcn, -, -, hcarr⟩ :=
    stable_stepN (t1 - t0) (rest.length + 1) chain j hj hl hs hn
  refine ⟨hcn, ?_⟩
  intro x hx
  rw [hcarr, ha, List.nil_append] at hx
  exact List.eq_of_mem_replicate hx

/-- Witness for C8: a stable, source-free nuclide over the grid
`[0, 1, 2, 3]`. -/
theorem stable_nuclide_constant_witness :
    StableLamdaZero ∧ ConstPopulation [("s2", sNuc)] c8out 0 :=
  stable_nuclide_constant [("s2", sNuc)] c8out [0, 1, 2, 3] 0
    (by decide) (by with_unfolding_all decide) (by decide)
    (by with_unfolding_all decide) (by decide) (by with_unfolding_all rfl)

/-! ## Claim C9 -/

/-- **C9** (confirmed).  After `Nuclide.__init__`, the attribute `n` holds
the population — `N_A * m0 / atomic_mass` when an initial mass is supplied,
else 0 — and not the neutron-count argument; the neutron count survives only
through `a = str(z + n)` and `name = sym.lower() + a`, computed before the
overwrite. -/
theorem mkNuclide_population_overwrite (sym : String) (z nn : Int)
    (mass : ℚ) (hl : Option ℚ) (m : ℚ) (m0 : Option ℚ) :
    (mkNuclide sym z nn mass hl (some m)).n = N_A * m / mass ∧
    (mkNuclide sym z nn mass hl none).n = 0 ∧
    (mkNuclide sym z nn mass hl m0).a = toString (z + nn) ∧
    (mkNuclide sym z nn mass hl m0).name = sym.toLower ++ toString (z + nn) :=
  ⟨rfl, rfl, rfl, rfl⟩

/-! ## Claim C10 -/

/-- **C10** (confirmed).  In `get_nuclides` a falsy `half_life_sec` field
(empty cell or 0) is normalized to `None` — and only falsy values are —
so the half-life handed to `Nuclide.__init__` is never 0 (no division by
zero in `LN2 / halflife`) and such a nuclide gets decay constant 0. -/
theorem falsy_halflife_stable (h : HalfLife) (s : String) (z nn : Int)
    (mass : ℚ) (m0 : Option ℚ) :
    (normalizeHalfLife h = none ↔ falsyHalfLife h = true) ∧
    (normalizeHalfLife h).all (fun q => q != 0) = true ∧
    (mkNuclide s z nn mass none m0).lamda = 0 := by
  refine ⟨?_, ?_, rfl⟩
  · cases h with
    | empty => simp [normalizeHalfLife, falsyHalfLife]
    | num q =>
        by_cases hq : q = 0 <;> simp [normalizeHalfLife, falsyHalfLife, hq]
  · cases h with
    | empty => rfl
    | num q =>
        by_cases hq : q = 0 <;> simp [normalizeHalfLife, hq]

/-! ## Claim C1 -/

lemma cycle_step1 :
    processNuc dsCycle srcCycle "a2" [] [] [] = (objsCycle1, dictCycle1, ["b2"]) :=
  rfl

lemma cycle_step2 :
    processNuc dsCycle srcCycle "b2" objsCycle1 dictCycle1 [] =
      (objsCycle2, dictCycle, ["a2"]) :=
  rfl

lemma cycle_stepA (objs : AList Nuclide) (rest : List String) :
    processNuc dsCycle srcCycle "a2" objs dictCycle rest =
      (objs, dictCycle, "b2" :: rest) :=
  rfl

lemma cycle_stepB (objs : AList Nuclide) (rest : List String) :
    processNuc dsCycle srcCycle "b2" objs dictCycle rest =
      (objs, dictCycle, "a2" :: rest) :=
  rfl

lemma get_nuclides_none (ds : String → NucData) (src : AList ℚ) (fuel : Nat)
    (h : discoverLoop ds src fuel (keysOf src).reverse [] [] = none) :
    get_nuclides ds src fuel = none := by
  unfold get_nuclides
  rw [h]

lemma cycle_loop_none (k : Nat) :
    (∀ objs, discoverLoop dsCycle srcCycle k ["a2"] objs dictCycle = none) ∧
    (∀ objs, discoverLoop dsCycle srcCycle k ["b2"] objs dictCycle = none) := by
  induction k with
  | zero => exact ⟨fun _ => rfl, fun _ => rfl⟩
  | succ k ih =>
      constructor
      · intro objs
        have e : discoverLoop dsCycle srcCycle (k + 1) ["a2"] objs dictCycle =
            discoverLoop dsCycle srcCycle k ["b2"] objs dictCycle := rfl
        rw [e]
        exact ih.2 objs
      · intro objs
        have e : discoverLoop dsCycle srcCycle (k + 1) ["b2"] objs dictCycle =
            discoverLoop dsCycle srcCycle k ["a2"] objs dictCycle := rfl
        rw [e]
        exact ih.1 objs

/-- **C1** (code bug).  The spec requires the discovery worklist loop to
terminate on a cyclic decay graph such as `a2 → b2 → a2`, but `get_nuclides`
re-processes every popped name and re-pushes all of its daughters with no
seen-check, so on this input the stack alternates between `[a2]` and `[b2]`
forever: the loop never finishes, for any iteration bound. -/
theorem get_nuclides_diverges_on_cycle :
    ∀ fuel, get_nuclides dsCycle srcCycle fuel = none := by
  intro fuel
  match fuel with
  | 0 => rfl
  | 1 => rfl
  | (k + 2) =>
      have h1 : discoverLoop dsCycle srcCycle (k + 2) ["a2"] [] [] =
          discoverLoop dsCycle srcCycle k ["a2"] objsCycle2 dictCycle := rfl
      have h2 := (cycle_loop_none k).1 objsCycle2
      apply get_nuclides_none
      rw [show ((keysOf srcCycle).reverse : List String) = ["a2"] from rfl, h1]
      exact h2

/-- **C7** (confirmed).  In every chain `get_nuclides` returns, the parents
and daughters relations are mutual inverses: for every pair of nuclides `p`
and `q` of the chain, `q` is in `p`'s daughters iff `p` is in `q`'s
parents. -/
theorem chain_parents_daughters_inverse {ds : String → NucData}
    {src : AList ℚ} {fuel : Nat} {chain : AList Nuclide}
    (h : get_nuclides ds src fuel = some (.ok chain)) :
    MutualInv chain := by
  obtain ⟨keys, hk, hmap, hall⟩ := get_nuclides_chain_spec h
  intro p hp q hq
  obtain ⟨hdp, _, _⟩ := hall p hp
  obtain ⟨_, hparq, _⟩ := hall q hq
  have hpk : p.1 ∈ keys := by
    rw [← hmap]
    exact List.mem_map_of_mem Prod.fst hp
  rw [hdp, hparq p.1]
  constructor
  · intro hx
    exact ⟨hpk, hx⟩
  · rintro ⟨_, hx⟩
    exact hx

/-- Closed instance of the C7 theorem: the two-member chain built from
`dsLine` satisfies the mutual-inverse property. -/
theorem chain_parents_daughters_inverse_witness : MutualInv chainLineVal :=
  @chain_parents_daughters_inverse dsLine srcLine 9 chainLineVal
    (by with_unfolding_all rfl)

/-- **C5** (counterexample to the claim as stated).  With a parent whose two
decay records share the daughter name `b2`, the build succeeds, the 40%
record is among the recorded (daughter, decay-fraction) pairs, yet no
`Decay` edge for it is attached to `b2`: `zip`-ping the de-duplicated
daughter set against the full decays list drops the second record, so the
per-pair edge property fails on this chain. -/
theorem decay_edge_dropped_on_duplicate_daughter :
    get_nuclides dsDup srcDup 9 = some (.ok chainDupVal) ∧
    (⟨40, "b", 1, 1⟩ : DecayRec) ∈ (dsDup "a2").decays ∧
    ¬ C5Concl dsDup chainDupVal := by
  refine ⟨by with_unfolding_all rfl, by with_unfolding_all decide, ?_⟩
  simp only [C5Concl]
  with_unfolding_all decide

/-- **C5** (as amended).  For every chain the build returns — under *every*
enumeration order of the daughter sets zipped at `main.py` line 106, since
CPython set iteration order is arbitrary — each chain member `q` whose key
is among the daughter names of a parent `p`'s decay records has exactly one
`Decay` edge with parent `p` in its incoming sources, and that edge carries
the percentage (divided by 100) of one of the first `s` decay records of
`p`, where `s` is the number of distinct daughter names of `p`; a `q` whose
key is not a daughter name of `p` has no such edge.  Which of the first `s`
records pairs with which daughter depends on the set order, and surplus
records beyond the first `s` are dropped. -/
theorem decay_edges_one_per_daughter {pord dord : String → List String}
    {ds : String → NucData} {src : AList ℚ} {fuel : Nat}
    {chain : AList Nuclide}
    (h : get_nuclidesOrd pord dord ds src fuel = some (.ok chain))
    (hdord : ∀ k, (dord k).Perm (dedupList (get_daughters (ds k).decays))) :
    C5ConclOrd ds chain := by
  obtain ⟨keys, hk, hmap, hall⟩ := get_nuclidesOrd_chain_spec h
  intro p hp q hq
  have hpk : p.1 ∈ keys := by
    rw [← hmap]
    exact List.mem_map_of_mem Prod.fst hp
  have hperm := hdord p.1
  have hndp : (dord p.1).Nodup :=
    hperm.nodup_iff.2 (nodup_dedupList _)
  have hmem : ∀ x, x ∈ dord p.1 ↔ x ∈ get_daughters (ds p.1).decays := by
    intro x
    rw [hperm.mem_iff, mem_dedupList]
  have hlen : (dord p.1).length =
      (dedupList (get_daughters (ds p.1).decays)).length := hperm.length_eq
  have hlen2 : (dord p.1).length ≤ (ds p.1).decays.length := by
    rw [hlen]
    calc (dedupList (get_daughters (ds p.1).decays)).length
        ≤ (get_daughters (ds p.1).decays).length := length_dedupList _
      _ = (ds p.1).decays.length := by simp [get_daughters]
  rw [hall q hq, edgesIntoOrd_filter_parent dord ds src q.1 keys hk p.1 hpk]
  constructor
  · intro hqd
    have hqmem : q.1 ∈ dord p.1 := (hmem q.1).2 hqd
    obtain ⟨dec, hdecm, heq⟩ := zip_filterMap_single_of_nodup p.1 q.1
      ((mkNuclideFromData ds src p.1).lamda) (dord p.1) (ds p.1).decays
      hndp hlen2 hqmem
    rw [hlen] at hdecm
    refine ⟨dec, hdecm, ?_⟩
    rw [heq]
    simp [mkEdge]
  · intro hqd
    have hqmem : q.1 ∉ dord p.1 := fun hh => hqd ((hmem q.1).1 hh)
    exact zip_filterMap_nil_of_not_mem p.1 q.1 _ _ _ hqmem

/-- Closed instance of the amended C5 theorem: the canonical enumeration of
the `dsLine` daughter sets builds the two-member line chain and satisfies
the one-edge-per-daughter property. -/
theorem decay_edges_one_per_daughter_witness : C5ConclOrd dsLine chainLineVal :=
  @decay_edges_one_per_daughter pordLine dordLine dsLine srcLine 9 chainLineVal
    (by with_unfolding_all rfl) (fun k => List.Perm.refl _)

end DecayChain
